import Mathlib

/-!
Shallow embedding of the property binding engine of
`src/sixtyfps_runtime/corelib/abi/properties.rs`.

Modelling conventions:

* A `Property<T>` instance is a node in a heap addressed by a `Nat` id; the
  heap is an association list `List (Nat × Node)`.  A node bundles the fields
  of `PropertyImpl<T>` (`binding`, `dependencies`, `dirty`), the value slot
  `value : UnsafeCell<T>` of `Property<T>` (we take `T = Int`), and a flag
  `updating` that models the state "the node's `RefCell` is mutably borrowed
  for the duration of a binding evaluation" (the borrow taken by
  `Property::update` across `binding.evaluate`).  A missing heap entry models
  a dropped property (a dead `Weak` reference).
* Rust `RefCell` borrow panics (`already mutably borrowed` in
  `self.inner.borrow()`, and the `expect("Binding loop detected")` /
  `expect("Circular dependency in binding evaluation")` calls) are all
  modelled by the outcome `err`.  These are the failures the specification
  calls `BindingLoopError` / `BorrowConflict`.  Rust panics unwind: held
  `RefMut` locks are released (the `updating` flag is cleared by the frame
  that set it) but ordinary statements after the panic point do not run.
* The recursion through binding evaluation is not structurally terminating
  (the engine detects loops dynamically), so the evaluator takes a fuel
  argument; running out of fuel yields the distinct outcome `noFuel`.
* Binding closures are deep-embedded as expressions `BExpr` over integer
  constants, arithmetic, branching and `Property::get` of another node; this
  is what the closures in the source and its test (`properties_simple_test`)
  do.  The `Binding` trait's `allow_replace_binding_with_value` /
  `allow_replace_binding_with_binding` hooks (which default to `true` and are
  never overridden in the source) are modelled as boolean fields of the
  binding object; `mark_dirty` and `set_notify_callback` on the binding are
  default no-ops in the source and are omitted.
* The thread-local `CURRENT_BINDING` is the `currentBinding` field of
  `EngineState`.  `EvaluationContext` is an opaque token the engine merely
  forwards to bindings; our embedded bindings do not consult it, so it is
  dropped.
* `evalLog` is ghost instrumentation: it records the id of every node whose
  binding is invoked (`binding.evaluate` in `Property::update` /
  `sixtyfps_property_update`).  It is read by no engine operation.
-/

/-- Outcome of an engine operation: success, a Rust panic (borrow conflict /
binding loop), or fuel exhaustion (a modelling artefact). -/
inductive Outcome (α : Type) where
  | ok (a : α)
  | err
  | noFuel
deriving DecidableEq, Repr

/-- Deep embedding of the binding closures: integer constants, reads of other
properties via `Property::get`, arithmetic and branching. -/
inductive BExpr where
  | const (n : Int)
  | get (p : Nat)
  | add (a b : BExpr)
  | mul (a b : BExpr)
  | ite (c t e : BExpr)
deriving DecidableEq, Repr

/-- A `Binding<T>` trait object: the computation plus the two replacement
policy hooks (both default to `true`; every binding constructed in the source
uses the default). -/
structure BindingObj where
  expr : BExpr
  allowReplaceValue : Bool := true
  allowReplaceBinding : Bool := true
deriving DecidableEq, Repr

/-- One property node: the fields of `PropertyImpl<T>` plus the value slot of
`Property<T>` and the borrow flag of its `RefCell`. -/
structure Node where
  value : Int := 0
  binding : Option BindingObj := none
  dependencies : List Nat := []
  dirty : Bool := false
  updating : Bool := false
deriving DecidableEq, Repr

/-- The heap of live property nodes, as an association list. -/
abbrev Heap : Type := List (Nat × Node)

/-- Look up a node (first entry with the given key). -/
def Heap.find : Heap → Nat → Option Node
  | [], _ => none
  | (k, n) :: t, p => if k = p then some n else Heap.find t p

/-- Replace the node stored under a key (no-op for absent keys). -/
def Heap.set : Heap → Nat → Node → Heap
  | [], _, _ => []
  | (k, n) :: t, p, m => if k = p then (k, m) :: Heap.set t p m else (k, n) :: Heap.set t p m

/-- Total number of dependency edges recorded in the heap. -/
def Heap.edges (h : Heap) : Nat := (h.map (fun e => e.2.dependencies.length)).sum

/-- No node is mid-evaluation: no `RefCell` is mutably borrowed. -/
def Heap.Quiescent (h : Heap) : Prop := ∀ e ∈ h, e.2.updating = false

instance (h : Heap) : Decidable h.Quiescent := List.decidableBAll _ h

/-- Every installed binding uses the default replacement policy (the only kind
of binding the source ever constructs). -/
def Heap.DefaultBindings (h : Heap) : Prop :=
  ∀ e ∈ h, (e.2.binding.all fun b => b.allowReplaceValue && b.allowReplaceBinding) = true

instance (h : Heap) : Decidable h.DefaultBindings := List.decidableBAll _ h

/-- The association list has no duplicate keys. -/
def Heap.NodupKeys (h : Heap) : Prop := (h.map Prod.fst).Nodup

instance (h : Heap) : Decidable h.NodupKeys := List.nodupDecidable _

/-- Global engine state: the heap, the thread-local `CURRENT_BINDING`, and the
ghost log of binding invocations. -/
structure EngineState where
  heap : Heap
  currentBinding : Option Nat := none
  evalLog : List Nat := []
deriving DecidableEq, Repr

/-- Sequencing for state-carrying fallible computations: failures propagate
together with the state at the failure point (Rust panics unwind, the heap
they leave behind is observable to the model). -/
def obind {α β : Type} (x : EngineState × Outcome α)
    (f : EngineState → α → EngineState × Outcome β) : EngineState × Outcome β :=
  match x with
  | (s, .ok a) => f s a
  | (s, .err) => (s, .err)
  | (s, .noFuel) => (s, .noFuel)

/-- Sequencing for heap-with-trace computations used by dirty propagation. -/
def mbind {α : Type} (x : (Heap × List Nat) × Outcome α)
    (f : Heap → List Nat → α → (Heap × List Nat) × Outcome α) : (Heap × List Nat) × Outcome α :=
  match x with
  | ((h, tr), .ok a) => f h tr a
  | (p, .err) => (p, .err)
  | (p, .noFuel) => (p, .noFuel)

mutual

/-- `<RefCell<PropertyImpl<T>> as PropertyNotify>::mark_dirty`
(properties.rs lines 67-82): set the node's `dirty` flag, swap its
`dependencies` out for an empty list, then recursively mark each dependent
that is still alive.  Dead weak references (`upgrade` fails, i.e. absent heap
entries) are skipped.  `binding.mark_dirty` is a default no-op for every
binding in the source and is omitted.  The returned `List Nat` is a ghost
trace of the nodes on which `dep.dirty = true` executed, in order.  The
`borrow_mut` on line 70 panics if the node is mid-evaluation. -/
def markDirty : Nat → Heap → Nat → (Heap × List Nat) × Outcome Unit
  | 0, h, _ => ((h, []), .noFuel)
  | fuel + 1, h, p =>
    match h.find p with
    | none => ((h, []), .ok ())
    | some n =>
      if n.updating then ((h, []), .err)
      else
        let h1 := h.set p { n with dirty := true, dependencies := [] }
        mbind (markDirtyList fuel h1 n.dependencies) fun h2 tr _ => ((h2, p :: tr), .ok ())

/-- The `for d in &v` loop of `mark_dirty` (properties.rs lines 77-81). -/
def markDirtyList : Nat → Heap → List Nat → (Heap × List Nat) × Outcome Unit
  | _, h, [] => ((h, []), .ok ())
  | 0, h, _ :: _ => ((h, []), .noFuel)
  | fuel + 1, h, d :: ds =>
    mbind (markDirty fuel h d) fun h1 tr1 _ =>
      mbind (markDirtyList fuel h1 ds) fun h2 tr2 _ => ((h2, tr1 ++ tr2), .ok ())

end

/-- `PropertyNotify::register_current_binding_as_dependency`
(properties.rs lines 84-91): if a binding is currently being evaluated, push
it onto this node's `dependencies`.  The `borrow_mut` panics if this node is
mid-evaluation (never reachable through the public API). -/
def register_current_binding_as_dependency (s : EngineState) (p : Nat) :
    EngineState × Outcome Unit :=
  match s.currentBinding with
  | none => (s, .ok ())
  | some m =>
    match s.heap.find p with
    | none => (s, .err)
    | some n =>
      if n.updating then (s, .err)
      else ({ s with heap := s.heap.set p { n with dependencies := n.dependencies ++ [m] } },
            .ok ())

mutual

/-- `Property::update` (properties.rs lines 241-262): if the node is clean,
return; otherwise evaluate its binding (if any) with `CURRENT_BINDING` swapped
to this node and the node's `RefCell` mutably borrowed, write the computed
value, clear `dirty`, and swap `CURRENT_BINDING` back.  The initial
`self.inner.borrow()` panics if the node is already mid-evaluation — this is
the loop detection.  On a panic inside the evaluation the borrow is released
by unwinding but the second `CURRENT_BINDING` swap does not run. -/
def update : Nat → EngineState → Nat → EngineState × Outcome Unit
  | 0, s, _ => (s, .noFuel)
  | fuel + 1, s, p =>
    match s.heap.find p with
    | none => (s, .ok ())
    | some n =>
      if n.updating then (s, .err)
      else if !n.dirty then (s, .ok ())
      else
        match n.binding with
        | none => (s, .ok ())
        | some b =>
          let old := s.currentBinding
          let s1 : EngineState :=
            { s with heap := s.heap.set p { n with updating := true },
                     currentBinding := some p,
                     evalLog := s.evalLog ++ [p] }
          match evalExpr fuel b.expr s1 with
          | (s2, .ok v) =>
            match s2.heap.find p with
            | some n2 =>
              let n3 : Node := { n2 with value := v, dirty := false, updating := false }
              ({ s2 with heap := s2.heap.set p n3, currentBinding := old }, .ok ())
            | none => (s2, .err)
          | (s2, .err) =>
            match s2.heap.find p with
            | some n2 =>
              let n3 : Node := { n2 with updating := false }
              ({ s2 with heap := s2.heap.set p n3 }, .err)
            | none => (s2, .err)
          | (s2, .noFuel) =>
            match s2.heap.find p with
            | some n2 =>
              let n3 : Node := { n2 with updating := false }
              ({ s2 with heap := s2.heap.set p n3 }, .noFuel)
            | none => (s2, .noFuel)

/-- Evaluation of an embedded binding closure.  A `get` subterm is a call of
`Property::get` on another property, exactly as the closures in the source do;
the body of `Property::get` (properties.rs lines 166-170: `update`, then
`register_current_binding_as_dependency`, then
`try_borrow().expect("Binding loop detected")` and clone the value) is inlined
here so that the mutual recursion is structural on the fuel; the standalone
wrapper `get` below is definitionally equal to it.  Every constructor consumes
one unit of fuel. -/
def evalExpr : Nat → BExpr → EngineState → EngineState × Outcome Int
  | 0, _, s => (s, .noFuel)
  | _ + 1, .const n, s => (s, .ok n)
  | fuel + 1, .get p, s =>
    obind (update fuel s p) fun s1 _ =>
      obind (register_current_binding_as_dependency s1 p) fun s2 _ =>
        match s2.heap.find p with
        | some n => if n.updating then (s2, .err) else (s2, .ok n.value)
        | none => (s2, .err)
  | fuel + 1, .add a b, s =>
    obind (evalExpr fuel a s) fun s1 va =>
      obind (evalExpr fuel b s1) fun s2 vb => (s2, .ok (va + vb))
  | fuel + 1, .mul a b, s =>
    obind (evalExpr fuel a s) fun s1 va =>
      obind (evalExpr fuel b s1) fun s2 vb => (s2, .ok (va * vb))
  | fuel + 1, .ite c t e, s =>
    obind (evalExpr fuel c s) fun s1 vc =>
      if vc ≠ 0 then evalExpr fuel t s1 else evalExpr fuel e s1

end

/-- `Property::get` (properties.rs lines 166-170): refresh via `update`,
register the currently evaluating binding as a dependent, then return a clone
of the value (`try_borrow().expect("Binding loop detected")`). -/
def get (fuel : Nat) (s : EngineState) (p : Nat) : EngineState × Outcome Int :=
  obind (update fuel s p) fun s1 _ =>
    obind (register_current_binding_as_dependency s1 p) fun s2 _ =>
      match s2.heap.find p with
      | some n => if n.updating then (s2, .err) else (s2, .ok n.value)
      | none => (s2, .err)

/-- Reading another property from inside a binding is exactly a call of
`Property::get` with one unit of fuel consumed. -/
theorem evalExpr_get (fuel : Nat) (p : Nat) (s : EngineState) :
    evalExpr (fuel + 1) (.get p) s = get fuel s p := rfl

/-- Unfolding lemma for `evalExpr` on sums. -/
theorem evalExpr_add (fuel : Nat) (a b : BExpr) (s : EngineState) :
    evalExpr (fuel + 1) (.add a b) s =
      obind (evalExpr fuel a s) fun s1 va =>
        obind (evalExpr fuel b s1) fun s2 vb => (s2, .ok (va + vb)) := rfl

/-- Unfolding lemma for `evalExpr` on products. -/
theorem evalExpr_mul (fuel : Nat) (a b : BExpr) (s : EngineState) :
    evalExpr (fuel + 1) (.mul a b) s =
      obind (evalExpr fuel a s) fun s1 va =>
        obind (evalExpr fuel b s1) fun s2 vb => (s2, .ok (va * vb)) := rfl

/-- Unfolding lemma for `evalExpr` on conditionals. -/
theorem evalExpr_ite (fuel : Nat) (c t e : BExpr) (s : EngineState) :
    evalExpr (fuel + 1) (.ite c t e) s =
      obind (evalExpr fuel c s) fun s1 vc =>
        if vc ≠ 0 then evalExpr fuel t s1 else evalExpr fuel e s1 := rfl

/-- The tail of `Property::set` after the replacement-policy check: write the
value, drop the binding, clear `dirty`, run `mark_dirty`, clear `dirty` again. -/
def setCommit (fuel : Nat) (s : EngineState) (p : Nat) (n : Node) (t : Int) :
    EngineState × Outcome Unit :=
  let h1 := s.heap.set p { n with binding := none, dirty := false, value := t }
  match markDirty fuel h1 p with
  | ((h2, _), .ok _) =>
    match h2.find p with
    | some n2 => ({ s with heap := h2.set p { n2 with dirty := false } }, .ok ())
    | none => ({ s with heap := h2 }, .err)
  | ((h2, _), .err) => ({ s with heap := h2 }, .err)
  | ((h2, _), .noFuel) => ({ s with heap := h2 }, .noFuel)

/-- `Property::set` (properties.rs lines 176-191): if the installed binding
declines replacement by a value, do nothing; otherwise clear the binding,
store the value, clear `dirty`, propagate dirty-marking to all dependents, and
finally force `dirty` back to `false`.  The initial `borrow` panics if the
node is mid-evaluation. -/
def set (fuel : Nat) (s : EngineState) (p : Nat) (t : Int) : EngineState × Outcome Unit :=
  match s.heap.find p with
  | none => (s, .err)
  | some n =>
    if n.updating then (s, .err)
    else
      match n.binding with
      | some b =>
        if !b.allowReplaceValue then (s, .ok ())
        else setCommit fuel s p n t
      | none => setCommit fuel s p n t

/-- The tail of `set_binding_object`: replace the binding, then `mark_dirty`. -/
def setBindingCommit (fuel : Nat) (s : EngineState) (p : Nat) (n : Node) (b : BindingObj) :
    EngineState × Outcome Unit :=
  let h1 := s.heap.set p { n with binding := some b }
  match markDirty fuel h1 p with
  | ((h2, _), .ok _) => ({ s with heap := h2 }, .ok ())
  | ((h2, _), .err) => ({ s with heap := h2 }, .err)
  | ((h2, _), .noFuel) => ({ s with heap := h2 }, .noFuel)

/-- `Property::set_binding` / `Property::set_binding_object`
(properties.rs lines 200-238): if the installed binding declines replacement
by a binding, do nothing; otherwise install the new binding object and
propagate dirty-marking (`set_notify_callback` is a default no-op).  The
binding is not evaluated here. -/
def set_binding (fuel : Nat) (s : EngineState) (p : Nat) (b : BindingObj) :
    EngineState × Outcome Unit :=
  match s.heap.find p with
  | none => (s, .err)
  | some n =>
    if n.updating then (s, .err)
    else
      match n.binding with
      | some eb =>
        if !eb.allowReplaceBinding then (s, .ok ())
        else setBindingCommit fuel s p n b
      | none => setBindingCommit fuel s p n b

/-- `sixtyfps_property_update` (properties.rs lines 319-348): the low-level
refresh.  If the node is clean, register the current binding as a dependent
and return (the caller then reads `*val`, which is the property's value slot);
otherwise evaluate the binding into the slot with `CURRENT_BINDING` swapped,
clear `dirty`, swap back, drop the lock and register the dependent.  The
returned `Int` models the contents of `val` after the call. -/
def sixtyfps_property_update : Nat → EngineState → Nat → EngineState × Outcome Int
  | 0, s, _ => (s, .noFuel)
  | fuel + 1, s, p =>
    match s.heap.find p with
    | none => (s, .err)
    | some n =>
      if n.updating then (s, .err)
      else if !n.dirty then
        obind (register_current_binding_as_dependency s p) fun s2 _ =>
          match s2.heap.find p with
          | some n2 => (s2, .ok n2.value)
          | none => (s2, .err)
      else
        match n.binding with
        | none =>
          obind (register_current_binding_as_dependency s p) fun s2 _ =>
            match s2.heap.find p with
            | some n2 => (s2, .ok n2.value)
            | none => (s2, .err)
        | some b =>
          let old := s.currentBinding
          let s1 : EngineState :=
            { s with heap := s.heap.set p { n with updating := true },
                     currentBinding := some p,
                     evalLog := s.evalLog ++ [p] }
          match evalExpr fuel b.expr s1 with
          | (s2, .ok v) =>
            match s2.heap.find p with
            | some n2 =>
              let n3 : Node := { n2 with value := v, dirty := false, updating := false }
              let s3 : EngineState :=
                { s2 with heap := s2.heap.set p n3, currentBinding := old }
              obind (register_current_binding_as_dependency s3 p) fun s4 _ =>
                match s4.heap.find p with
                | some n4 => (s4, .ok n4.value)
                | none => (s4, .err)
            | none => (s2, .err)
          | (s2, .err) =>
            match s2.heap.find p with
            | some n2 =>
              let n3 : Node := { n2 with updating := false }
              ({ s2 with heap := s2.heap.set p n3 }, .err)
            | none => (s2, .err)
          | (s2, .noFuel) =>
            match s2.heap.find p with
            | some n2 =>
              let n3 : Node := { n2 with updating := false }
              ({ s2 with heap := s2.heap.set p n3 }, .noFuel)
            | none => (s2, .noFuel)

/-- `sixtyfps_property_set_changed` (properties.rs lines 353-358): propagate
dirty-marking from the node, then clear its own `dirty` flag and remove its
binding (the caller has already mutated the value in place). -/
def sixtyfps_property_set_changed (fuel : Nat) (s : EngineState) (p : Nat) :
    EngineState × Outcome Unit :=
  match s.heap.find p with
  | none => (s, .err)
  | some _ =>
    match markDirty fuel s.heap p with
    | ((h2, _), .ok _) =>
      match h2.find p with
      | some n2 =>
        ({ s with heap := h2.set p { n2 with dirty := false, binding := none } }, .ok ())
      | none => ({ s with heap := h2 }, .err)
    | ((h2, _), .err) => ({ s with heap := h2 }, .err)
    | ((h2, _), .noFuel) => ({ s with heap := h2 }, .noFuel)

/-- `sixtyfps_property_set_binding` (properties.rs lines 369-402): install a
foreign binding object (which, like every binding the source constructs, uses
the default replacement policy) and propagate dirty-marking.  Unlike the
high-level `set_binding` there is no replacement-policy query of the existing
binding. -/
def sixtyfps_property_set_binding (fuel : Nat) (s : EngineState) (p : Nat) (b : BindingObj) :
    EngineState × Outcome Unit :=
  match s.heap.find p with
  | none => (s, .err)
  | some n =>
    if n.updating then (s, .err)
    else
      let h1 := s.heap.set p { n with binding := some b }
      match markDirty fuel h1 p with
      | ((h2, _), .ok _) => ({ s with heap := h2 }, .ok ())
      | ((h2, _), .err) => ({ s with heap := h2 }, .err)
      | ((h2, _), .noFuel) => ({ s with heap := h2 }, .noFuel)

/-- An abstract operation on one property, interpreted either through the
high-level `Property` API or through the low-level opaque-handle API. -/
inductive Op where
  | get (p : Nat)
  | set (p : Nat) (v : Int)
  | setBinding (p : Nat) (e : BExpr)
deriving DecidableEq, Repr

/-- Interpret a sequence of operations through the high-level API
(`Property::get` / `Property::set` / `Property::set_binding`), collecting the
values returned by the `get` operations and stopping at the first failure. -/
def runHigh (fuel : Nat) (s : EngineState) : List Op → EngineState × List Int × Outcome Unit
  | [] => (s, [], .ok ())
  | .get p :: ops =>
    match get fuel s p with
    | (s1, .ok v) =>
      match runHigh fuel s1 ops with
      | (s2, vs, out) => (s2, v :: vs, out)
    | (s1, .err) => (s1, [], .err)
    | (s1, .noFuel) => (s1, [], .noFuel)
  | .set p v :: ops =>
    match set fuel s p v with
    | (s1, .ok _) => runHigh fuel s1 ops
    | (s1, .err) => (s1, [], .err)
    | (s1, .noFuel) => (s1, [], .noFuel)
  | .setBinding p e :: ops =>
    match set_binding fuel s p { expr := e } with
    | (s1, .ok _) => runHigh fuel s1 ops
    | (s1, .err) => (s1, [], .err)
    | (s1, .noFuel) => (s1, [], .noFuel)

/-- Interpret the same operations through the low-level opaque-handle API:
`get` becomes `sixtyfps_property_update` (refresh then read the slot), `set`
becomes an in-place write of the value through the raw pointer followed by
`sixtyfps_property_set_changed`, and `setBinding` becomes
`sixtyfps_property_set_binding`. -/
def runLow (fuel : Nat) (s : EngineState) : List Op → EngineState × List Int × Outcome Unit
  | [] => (s, [], .ok ())
  | .get p :: ops =>
    match sixtyfps_property_update fuel s p with
    | (s1, .ok v) =>
      match runLow fuel s1 ops with
      | (s2, vs, out) => (s2, v :: vs, out)
    | (s1, .err) => (s1, [], .err)
    | (s1, .noFuel) => (s1, [], .noFuel)
  | .set p v :: ops =>
    let s0 : EngineState :=
      match s.heap.find p with
      | some n => { s with heap := s.heap.set p { n with value := v } }
      | none => s
    match sixtyfps_property_set_changed fuel s0 p with
    | (s1, .ok _) => runLow fuel s1 ops
    | (s1, .err) => (s1, [], .err)
    | (s1, .noFuel) => (s1, [], .noFuel)
  | .setBinding p e :: ops =>
    match sixtyfps_property_set_binding fuel s p { expr := e } with
    | (s1, .ok _) => runLow fuel s1 ops
    | (s1, .err) => (s1, [], .err)
    | (s1, .noFuel) => (s1, [], .noFuel)


/-! ## Basic association-list lemmas -/

theorem Heap.find_cons (k : Nat) (v : Node) (t : Heap) (p : Nat) :
    Heap.find ((k, v) :: t) p = if k = p then some v else Heap.find t p := rfl

theorem Heap.set_cons (k : Nat) (v : Node) (t : Heap) (p : Nat) (m : Node) :
    Heap.set ((k, v) :: t) p m =
      if k = p then (k, m) :: Heap.set t p m else (k, v) :: Heap.set t p m := rfl

theorem Heap.find_set_self (h : Heap) (p : Nat) (n m : Node)
    (hf : h.find p = some n) : (h.set p m).find p = some m := by
  induction h with
  | nil => simp [Heap.find] at hf
  | cons e t ih =>
    obtain ⟨k, v⟩ := e
    rw [Heap.find_cons] at hf
    rw [Heap.set_cons]
    by_cases hk : k = p
    · rw [if_pos hk, Heap.find_cons, if_pos hk]
    · rw [if_neg hk] at hf
      rw [if_neg hk, Heap.find_cons, if_neg hk]
      exact ih hf

theorem Heap.find_set_ne (h : Heap) (p q : Nat) (m : Node) (hq : q ≠ p) :
    (h.set p m).find q = h.find q := by
  induction h with
  | nil => rfl
  | cons e t ih =>
    obtain ⟨k, v⟩ := e
    rw [Heap.set_cons]
    by_cases hk : k = p
    · have hkq : ¬ (k = q) := fun h => hq (h ▸ hk)
      rw [if_pos hk, Heap.find_cons, Heap.find_cons, if_neg hkq, if_neg hkq]
      exact ih
    · rw [if_neg hk, Heap.find_cons, Heap.find_cons]
      by_cases hkq : k = q
      · rw [if_pos hkq, if_pos hkq]
      · rw [if_neg hkq, if_neg hkq]; exact ih

theorem Heap.set_absent (h : Heap) (p : Nat) (m : Node) (hf : h.find p = none) :
    h.set p m = h := by
  induction h with
  | nil => rfl
  | cons e t ih =>
    obtain ⟨k, v⟩ := e
    rw [Heap.find_cons] at hf
    by_cases hk : k = p
    · rw [if_pos hk] at hf; exact absurd hf (by simp)
    · rw [if_neg hk] at hf
      rw [Heap.set_cons, if_neg hk, ih hf]

theorem Heap.find_isSome_set (h : Heap) (p q : Nat) (m : Node) :
    ((h.set p m).find q).isSome = (h.find q).isSome := by
  by_cases hq : q = p
  · subst hq
    cases hf : h.find q with
    | none => rw [Heap.set_absent h q m hf, hf]
    | some n => rw [Heap.find_set_self h q n m hf]; rfl
  · rw [Heap.find_set_ne h p q m hq]

theorem Heap.find_some_mem (h : Heap) (p : Nat) (n : Node) (hf : h.find p = some n) :
    (p, n) ∈ h := by
  induction h with
  | nil => simp [Heap.find] at hf
  | cons e t ih =>
    obtain ⟨k, v⟩ := e
    rw [Heap.find_cons] at hf
    by_cases hk : k = p
    · rw [if_pos hk] at hf
      injection hf with hv
      subst hk; subst hv
      exact List.mem_cons_self _ _
    · rw [if_neg hk] at hf
      exact List.mem_cons_of_mem _ (ih hf)

theorem Heap.mem_set (h : Heap) (p : Nat) (m : Node) (e : Nat × Node)
    (he : e ∈ h.set p m) : e ∈ h ∨ e = (p, m) := by
  induction h with
  | nil => exact Or.inl he
  | cons f t ih =>
    obtain ⟨k, v⟩ := f
    rw [Heap.set_cons] at he
    by_cases hk : k = p
    · rw [if_pos hk] at he
      rcases List.mem_cons.mp he with he1 | he1
      · right; rw [he1, hk]
      · rcases ih he1 with h1 | h1
        · left; exact List.mem_cons_of_mem _ h1
        · right; exact h1
    · rw [if_neg hk] at he
      rcases List.mem_cons.mp he with he1 | he1
      · left; rw [he1]; exact List.mem_cons_self _ _
      · rcases ih he1 with h1 | h1
        · left; exact List.mem_cons_of_mem _ h1
        · right; exact h1

theorem Heap.Quiescent.findQ {h : Heap} (hq : h.Quiescent) {p : Nat} {n : Node}
    (hf : h.find p = some n) : n.updating = false :=
  hq _ (Heap.find_some_mem h p n hf)

theorem Heap.Quiescent.setQ {h : Heap} (hq : h.Quiescent) {p : Nat} {m : Node}
    (hm : m.updating = false) : (h.set p m).Quiescent := by
  intro e he
  rcases Heap.mem_set h p m e he with h1 | h1
  · exact hq e h1
  · rw [h1]; exact hm

theorem Heap.DefaultBindings.findD {h : Heap} (hd : h.DefaultBindings) {p : Nat} {n : Node}
    (hf : h.find p = some n) :
    (n.binding.all fun b => b.allowReplaceValue && b.allowReplaceBinding) = true :=
  hd _ (Heap.find_some_mem h p n hf)

theorem Heap.DefaultBindings.setD {h : Heap} (hd : h.DefaultBindings) {p : Nat} {m : Node}
    (hm : (m.binding.all fun b => b.allowReplaceValue && b.allowReplaceBinding) = true) :
    (h.set p m).DefaultBindings := by
  intro e he
  rcases Heap.mem_set h p m e he with h1 | h1
  · exact hd e h1
  · rw [h1]; exact hm

theorem Heap.set_keys (h : Heap) (p : Nat) (m : Node) :
    (h.set p m).map Prod.fst = h.map Prod.fst := by
  induction h with
  | nil => rfl
  | cons e t ih =>
    obtain ⟨k, v⟩ := e
    rw [Heap.set_cons]
    by_cases hk : k = p
    · rw [if_pos hk]; simp [ih]
    · rw [if_neg hk]; simp [ih]

theorem Heap.NodupKeys.setK {h : Heap} (hn : h.NodupKeys) (p : Nat) (m : Node) :
    (h.set p m).NodupKeys := by
  unfold Heap.NodupKeys at *
  rw [Heap.set_keys]; exact hn

theorem Heap.find_none_of_not_mem_keys (h : Heap) (p : Nat)
    (hp : p ∉ h.map Prod.fst) : h.find p = none := by
  induction h with
  | nil => rfl
  | cons e t ih =>
    obtain ⟨k, v⟩ := e
    simp only [List.map_cons, List.mem_cons] at hp
    push_neg at hp
    rw [Heap.find_cons, if_neg (fun h : k = p => hp.1 h.symm)]
    exact ih hp.2

theorem Heap.edges_set {h : Heap} (hn : h.NodupKeys) {p : Nat} {n : Node} (m : Node)
    (hf : h.find p = some n) :
    (h.set p m).edges + n.dependencies.length = h.edges + m.dependencies.length := by
  induction h with
  | nil => simp [Heap.find] at hf
  | cons e t ih =>
    obtain ⟨k, v⟩ := e
    unfold Heap.NodupKeys at hn
    simp only [List.map_cons, List.nodup_cons] at hn
    rw [Heap.find_cons] at hf
    rw [Heap.set_cons]
    by_cases hk : k = p
    · rw [if_pos hk] at hf ⊢
      injection hf with hv
      subst hv
      have ht : Heap.set t p m = t := by
        rw [hk] at hn
        exact Heap.set_absent t p m (Heap.find_none_of_not_mem_keys t p hn.1)
      simp only [Heap.edges, List.map_cons, List.sum_cons, ht]
      omega
    · rw [if_neg hk] at hf ⊢
      have := ih hn.2 hf
      simp only [Heap.edges, List.map_cons, List.sum_cons] at this ⊢
      omega

/-! ## Concrete scenario states

The `c2*`, `cyc*`, `c6*` and `c5*` states below are the intermediate engine
states of the concrete scenarios used by the claims; each is written out as a
literal and connected to its predecessor by a step lemma proved by `rfl`.
Scenario `c2`: three fresh properties 0 = width, 1 = height, 2 = area with
`area := width * height`.  Scenario `cyc`: two properties with mutually
recursive bindings.  Scenario `c6`: property 0 gets a binding reading 1, is
evaluated (registering 0 as a dependent of 1), has the binding replaced by the
plain value 5, after which property 1 is set.  Scenario `c5`: property 3 has
the branching binding `if 0 then 1 else 2`; its dependent edges are rewired
across three evaluations.
-/

/-- Two fresh properties, ids 0 and 1. -/
def initTwo : EngineState := { heap := [(0, {}), (1, {})] }

/-- Three fresh properties, ids 0 (width), 1 (height), 2 (area). -/
def initThree : EngineState := { heap := [(0, {}), (1, {}), (2, {})] }

/-- Four fresh properties, ids 0 (selector), 1, 2, 3 (the branching node). -/
def initFour : EngineState := { heap := [(0, {}), (1, {}), (2, {}), (3, {})] }

def c2s1 : EngineState :=
  { heap := [(0, { value := 0, binding := none, dependencies := [], dirty := false, updating := false }), (1, { value := 0, binding := none, dependencies := [], dirty := false, updating := false }), (2, { value := 0, binding := some { expr := BExpr.mul (BExpr.get 0) (BExpr.get 1), allowReplaceValue := true, allowReplaceBinding := true }, dependencies := [], dirty := true, updating := false })], currentBinding := none, evalLog := [] }

def c2s2 : EngineState :=
  { heap := [(0, { value := 4, binding := none, dependencies := [], dirty := false, updating := false }), (1, { value := 0, binding := none, dependencies := [], dirty := false, updating := false }), (2, { value := 0, binding := some { expr := BExpr.mul (BExpr.get 0) (BExpr.get 1), allowReplaceValue := true, allowReplaceBinding := true }, dependencies := [], dirty := true, updating := false })], currentBinding := none, evalLog := [] }

def c2s3 : EngineState :=
  { heap := [(0, { value := 4, binding := none, dependencies := [], dirty := false, updating := false }), (1, { value := 8, binding := none, dependencies := [], dirty := false, updating := false }), (2, { value := 0, binding := some { expr := BExpr.mul (BExpr.get 0) (BExpr.get 1), allowReplaceValue := true, allowReplaceBinding := true }, dependencies := [], dirty := true, updating := false })], currentBinding := none, evalLog := [] }

def c2s4 : EngineState :=
  { heap := [(0, { value := 4, binding := none, dependencies := [2], dirty := false, updating := false }), (1, { value := 8, binding := none, dependencies := [2], dirty := false, updating := false }), (2, { value := 32, binding := some { expr := BExpr.mul (BExpr.get 0) (BExpr.get 1), allowReplaceValue := true, allowReplaceBinding := true }, dependencies := [], dirty := false, updating := false })], currentBinding := none, evalLog := [2] }

def c2s5 : EngineState :=
  { heap := [(0, { value := 10, binding := none, dependencies := [], dirty := false, updating := false }), (1, { value := 8, binding := none, dependencies := [2], dirty := false, updating := false }), (2, { value := 32, binding := some { expr := BExpr.mul (BExpr.get 0) (BExpr.get 1), allowReplaceValue := true, allowReplaceBinding := true }, dependencies := [], dirty := true, updating := false })], currentBinding := none, evalLog := [2] }

def c2s6 : EngineState :=
  { heap := [(0, { value := 10, binding := none, dependencies := [2], dirty := false, updating := false }), (1, { value := 8, binding := none, dependencies := [2, 2], dirty := false, updating := false }), (2, { value := 80, binding := some { expr := BExpr.mul (BExpr.get 0) (BExpr.get 1), allowReplaceValue := true, allowReplaceBinding := true }, dependencies := [], dirty := false, updating := false })], currentBinding := none, evalLog := [2, 2] }

def cycs1 : EngineState :=
  { heap := [(0, { value := 0, binding := some { expr := BExpr.get 1, allowReplaceValue := true, allowReplaceBinding := true }, dependencies := [], dirty := true, updating := false }), (1, { value := 0, binding := none, dependencies := [], dirty := false, updating := false })], currentBinding := none, evalLog := [] }

def cycleState : EngineState :=
  { heap := [(0, { value := 0, binding := some { expr := BExpr.get 1, allowReplaceValue := true, allowReplaceBinding := true }, dependencies := [], dirty := true, updating := false }), (1, { value := 0, binding := some { expr := BExpr.get 0, allowReplaceValue := true, allowReplaceBinding := true }, dependencies := [], dirty := true, updating := false })], currentBinding := none, evalLog := [] }

def c6s1 : EngineState :=
  { heap := [(0, { value := 0, binding := some { expr := BExpr.get 1, allowReplaceValue := true, allowReplaceBinding := true }, dependencies := [], dirty := true, updating := false }), (1, { value := 0, binding := none, dependencies := [], dirty := false, updating := false })], currentBinding := none, evalLog := [] }

def c6s2 : EngineState :=
  { heap := [(0, { value := 0, binding := some { expr := BExpr.get 1, allowReplaceValue := true, allowReplaceBinding := true }, dependencies := [], dirty := false, updating := false }), (1, { value := 0, binding := none, dependencies := [0], dirty := false, updating := false })], currentBinding := none, evalLog := [0] }

def c6s3 : EngineState :=
  { heap := [(0, { value := 5, binding := none, dependencies := [], dirty := false, updating := false }), (1, { value := 0, binding := none, dependencies := [0], dirty := false, updating := false })], currentBinding := none, evalLog := [0] }

def c6s4 : EngineState :=
  { heap := [(0, { value := 5, binding := none, dependencies := [], dirty := true, updating := false }), (1, { value := 7, binding := none, dependencies := [], dirty := false, updating := false })], currentBinding := none, evalLog := [0] }

def c5s1 : EngineState :=
  { heap := [(0, { value := 0, binding := none, dependencies := [], dirty := false, updating := false }), (1, { value := 0, binding := none, dependencies := [], dirty := false, updating := false }), (2, { value := 0, binding := none, dependencies := [], dirty := false, updating := false }), (3, { value := 0, binding := some { expr := BExpr.ite (BExpr.get 0) (BExpr.get 1) (BExpr.get 2), allowReplaceValue := true, allowReplaceBinding := true }, dependencies := [], dirty := true, updating := false })], currentBinding := none, evalLog := [] }

def c5s2 : EngineState :=
  { heap := [(0, { value := 1, binding := none, dependencies := [], dirty := false, updating := false }), (1, { value := 0, binding := none, dependencies := [], dirty := false, updating := false }), (2, { value := 0, binding := none, dependencies := [], dirty := false, updating := false }), (3, { value := 0, binding := some { expr := BExpr.ite (BExpr.get 0) (BExpr.get 1) (BExpr.get 2), allowReplaceValue := true, allowReplaceBinding := true }, dependencies := [], dirty := true, updating := false })], currentBinding := none, evalLog := [] }

def c5s3 : EngineState :=
  { heap := [(0, { value := 1, binding := none, dependencies := [], dirty := false, updating := false }), (1, { value := 10, binding := none, dependencies := [], dirty := false, updating := false }), (2, { value := 0, binding := none, dependencies := [], dirty := false, updating := false }), (3, { value := 0, binding := some { expr := BExpr.ite (BExpr.get 0) (BExpr.get 1) (BExpr.get 2), allowReplaceValue := true, allowReplaceBinding := true }, dependencies := [], dirty := true, updating := false })], currentBinding := none, evalLog := [] }

def c5s4 : EngineState :=
  { heap := [(0, { value := 1, binding := none, dependencies := [], dirty := false, updating := false }), (1, { value := 10, binding := none, dependencies := [], dirty := false, updating := false }), (2, { value := 20, binding := none, dependencies := [], dirty := false, updating := false }), (3, { value := 0, binding := some { expr := BExpr.ite (BExpr.get 0) (BExpr.get 1) (BExpr.get 2), allowReplaceValue := true, allowReplaceBinding := true }, dependencies := [], dirty := true, updating := false })], currentBinding := none, evalLog := [] }

def c5s5 : EngineState :=
  { heap := [(0, { value := 1, binding := none, dependencies := [3], dirty := false, updating := false }), (1, { value := 10, binding := none, dependencies := [3], dirty := false, updating := false }), (2, { value := 20, binding := none, dependencies := [], dirty := false, updating := false }), (3, { value := 10, binding := some { expr := BExpr.ite (BExpr.get 0) (BExpr.get 1) (BExpr.get 2), allowReplaceValue := true, allowReplaceBinding := true }, dependencies := [], dirty := false, updating := false })], currentBinding := none, evalLog := [3] }

def c5s6 : EngineState :=
  { heap := [(0, { value := 1, binding := none, dependencies := [3], dirty := false, updating := false }), (1, { value := 11, binding := none, dependencies := [], dirty := false, updating := false }), (2, { value := 20, binding := none, dependencies := [], dirty := false, updating := false }), (3, { value := 10, binding := some { expr := BExpr.ite (BExpr.get 0) (BExpr.get 1) (BExpr.get 2), allowReplaceValue := true, allowReplaceBinding := true }, dependencies := [], dirty := true, updating := false })], currentBinding := none, evalLog := [3] }

def c5s7 : EngineState :=
  { heap := [(0, { value := 1, binding := none, dependencies := [3, 3], dirty := false, updating := false }), (1, { value := 11, binding := none, dependencies := [3], dirty := false, updating := false }), (2, { value := 20, binding := none, dependencies := [], dirty := false, updating := false }), (3, { value := 11, binding := some { expr := BExpr.ite (BExpr.get 0) (BExpr.get 1) (BExpr.get 2), allowReplaceValue := true, allowReplaceBinding := true }, dependencies := [], dirty := false, updating := false })], currentBinding := none, evalLog := [3, 3] }

def c5s8 : EngineState :=
  { heap := [(0, { value := 0, binding := none, dependencies := [], dirty := false, updating := false }), (1, { value := 11, binding := none, dependencies := [3], dirty := false, updating := false }), (2, { value := 20, binding := none, dependencies := [], dirty := false, updating := false }), (3, { value := 11, binding := some { expr := BExpr.ite (BExpr.get 0) (BExpr.get 1) (BExpr.get 2), allowReplaceValue := true, allowReplaceBinding := true }, dependencies := [], dirty := true, updating := false })], currentBinding := none, evalLog := [3, 3] }

def c5s9 : EngineState :=
  { heap := [(0, { value := 0, binding := none, dependencies := [3], dirty := false, updating := false }), (1, { value := 11, binding := none, dependencies := [3], dirty := false, updating := false }), (2, { value := 20, binding := none, dependencies := [3], dirty := false, updating := false }), (3, { value := 20, binding := some { expr := BExpr.ite (BExpr.get 0) (BExpr.get 1) (BExpr.get 2), allowReplaceValue := true, allowReplaceBinding := true }, dependencies := [], dirty := false, updating := false })], currentBinding := none, evalLog := [3, 3, 3] }

/-! ## Scenario scripts and step lemmas -/

/-- The dependency-propagation script of testable property 3 of the spec:
`area.set_binding(|| width.get() * height.get()); width.set(4); height.set(8);
area.get(); width.set(10); area.get()`. -/
def areaScript : List Op :=
  [.setBinding 2 (.mul (.get 0) (.get 1)), .set 0 4, .set 1 8, .get 2, .set 0 10, .get 2]

/-- The loop script of testable property 5 of the spec:
`a.set_binding(|| b.get()); b.set_binding(|| a.get())`. -/
def cycleScript : List Op := [.setBinding 0 (.get 1), .setBinding 1 (.get 0)]

/-- Script reaching a node with no binding but a set dirty flag: install a
binding on 0 reading 1, evaluate it (creating the edge 1 → 0), replace it by
the plain value 5, then set 1. -/
def c6Script : List Op := [.setBinding 0 (.get 1), .get 0, .set 0 5, .set 1 7]

/-- Script steering the branching binding of node 3 through three
evaluations: reads {0, 1} (selector 1), reads {0, 1} again after `set 1 11`,
then reads {0, 2} after the selector flips to 0.  The edge 1 → 3 recorded by
the second evaluation is never consumed and survives the third evaluation. -/
def staleScript : List Op :=
  [.setBinding 3 (.ite (.get 0) (.get 1) (.get 2)), .set 0 1, .set 1 10, .set 2 20, .get 3,
   .set 1 11, .get 3, .set 0 0, .get 3]

theorem c2step1 :
    set_binding 12 initThree 2 { expr := .mul (.get 0) (.get 1) } = (c2s1, .ok ()) := rfl
theorem c2step2 : set 12 c2s1 0 4 = (c2s2, .ok ()) := rfl
theorem c2step3 : set 12 c2s2 1 8 = (c2s3, .ok ()) := rfl
theorem c2step4 : get 12 c2s3 2 = (c2s4, .ok 32) := rfl
theorem c2step5 : set 12 c2s4 0 10 = (c2s5, .ok ()) := rfl
theorem c2step6 : get 12 c2s5 2 = (c2s6, .ok 80) := rfl

theorem cycstep1 : set_binding 12 initTwo 0 { expr := .get 1 } = (cycs1, .ok ()) := rfl
theorem cycstep2 : set_binding 12 cycs1 1 { expr := .get 0 } = (cycleState, .ok ()) := rfl

theorem c6step1 : set_binding 12 initTwo 0 { expr := .get 1 } = (c6s1, .ok ()) := rfl
theorem c6step2 : get 12 c6s1 0 = (c6s2, .ok 0) := rfl
theorem c6step3 : set 12 c6s2 0 5 = (c6s3, .ok ()) := rfl
theorem c6step4 : set 12 c6s3 1 7 = (c6s4, .ok ()) := rfl

theorem c5step1 :
    set_binding 12 initFour 3 { expr := .ite (.get 0) (.get 1) (.get 2) } = (c5s1, .ok ()) := rfl
theorem c5step2 : set 12 c5s1 0 1 = (c5s2, .ok ()) := rfl
theorem c5step3 : set 12 c5s2 1 10 = (c5s3, .ok ()) := rfl
theorem c5step4 : set 12 c5s3 2 20 = (c5s4, .ok ()) := rfl
theorem c5step5 : get 12 c5s4 3 = (c5s5, .ok 10) := rfl
theorem c5step6 : set 12 c5s5 1 11 = (c5s6, .ok ()) := rfl
theorem c5step7 : get 12 c5s6 3 = (c5s7, .ok 11) := rfl
theorem c5step8 : set 12 c5s7 0 0 = (c5s8, .ok ()) := rfl
theorem c5step9 : get 12 c5s8 3 = (c5s9, .ok 20) := rfl

/-- The full dependency-propagation run, assembled from the step lemmas. -/
theorem areaRun : runHigh 12 initThree areaScript = (c2s6, [32, 80], .ok ()) := by
  simp only [areaScript, runHigh, c2step1, c2step2, c2step3, c2step4, c2step5, c2step6]

/-- The cycle-construction run. -/
theorem cycleRun : runHigh 12 initTwo cycleScript = (cycleState, [], .ok ()) := by
  simp only [cycleScript, runHigh, cycstep1, cycstep2]

/-- The binding-removal run. -/
theorem c6Run : runHigh 12 initTwo c6Script = (c6s4, [0], .ok ()) := by
  simp only [c6Script, runHigh, c6step1, c6step2, c6step3, c6step4]

/-- The branch-rewiring run. -/
theorem staleRun : runHigh 12 initFour staleScript = (c5s9, [10, 11, 20], .ok ()) := by
  simp only [staleScript, runHigh, c5step1, c5step2, c5step3, c5step4, c5step5, c5step6,
             c5step7, c5step8, c5step9]

/-! ## Small helper lemmas about single operations -/

/-- Unfolding lemma for `get` (the plain `unfold` is shadowed by the monadic
`get` of the ambient library). -/
theorem get_eq (fuel : Nat) (s : EngineState) (p : Nat) :
    get fuel s p = obind (update fuel s p) fun s1 _ =>
      obind (register_current_binding_as_dependency s1 p) fun s2 _ =>
        match s2.heap.find p with
        | some n => if n.updating then (s2, .err) else (s2, .ok n.value)
        | none => (s2, .err) := rfl

/-- Calling `Property::update` on a node that is already mid-evaluation fails
immediately (the `self.inner.borrow()` on properties.rs line 242 panics while
the evaluation's `RefMut` is live) without touching the state. -/
theorem update_of_updating (fuel : Nat) (s : EngineState) (p : Nat) (n : Node)
    (hf : s.heap.find p = some n) (hu : n.updating = true) :
    update (fuel + 1) s p = (s, .err) := by
  simp only [update, hf, hu, if_true]

/-- Calling `Property::get` on a node that is already mid-evaluation fails
immediately. -/
theorem get_of_updating (fuel : Nat) (s : EngineState) (p : Nat) (n : Node)
    (hf : s.heap.find p = some n) (hu : n.updating = true) :
    get (fuel + 1) s p = (s, .err) := by
  rw [get_eq, update_of_updating fuel s p n hf hu]
  rfl

/-- Reading a node with no installed binding returns the stored value,
whatever its dirty flag: `update` finds no binding to run (clean nodes return
early, dirty binding-less nodes fall through the `if let Some(binding)`), and
the final `try_borrow` clone returns the slot contents. -/
theorem get_value_of_no_binding (fuel : Nat) (s : EngineState) (p : Nat) (n : Node)
    (hf : s.heap.find p = some n) (hb : n.binding = none) (hu : n.updating = false) :
    (get (fuel + 1) s p).2 = .ok n.value := by
  have hupd : update (fuel + 1) s p = (s, .ok ()) := by
    cases hd : n.dirty <;> simp only [update, hf, hu, hb, hd, Bool.false_eq_true, if_false,
      Bool.not_false, Bool.not_true, if_true]
  rw [get_eq, hupd]
  show (obind (register_current_binding_as_dependency s p) fun s2 _ => _).2 = _
  unfold register_current_binding_as_dependency
  cases hcb : s.currentBinding with
  | none => simp only [obind, hf, hu, Bool.false_eq_true, if_false]
  | some m =>
    simp only [hf, hu, Bool.false_eq_true, if_false]
    have hfind : ((s.heap.set p
          { n with dependencies := n.dependencies ++ [m], updating := false }).find p)
        = some { n with dependencies := n.dependencies ++ [m], updating := false } :=
      Heap.find_set_self s.heap p n _ hf
    simp only [obind, hfind, Bool.false_eq_true, if_false]

/-- `register_current_binding_as_dependency` only ever touches the heap: the
thread-local marker and the ghost log are untouched. -/
theorem register_preserves (s : EngineState) (p : Nat) :
    (register_current_binding_as_dependency s p).1.currentBinding = s.currentBinding ∧
    (register_current_binding_as_dependency s p).1.evalLog = s.evalLog := by
  unfold register_current_binding_as_dependency
  rcases s with ⟨heap, cb, log⟩
  cases cb with
  | none => exact ⟨rfl, rfl⟩
  | some m =>
    dsimp only
    cases heap.find p with
    | none => exact ⟨rfl, rfl⟩
    | some n =>
      dsimp only
      by_cases hu : n.updating = true
      · rw [if_pos hu]; exact ⟨rfl, rfl⟩
      · rw [if_neg hu]; exact ⟨rfl, rfl⟩

/-- On every successful exit of `Property::update` the thread-local
`CURRENT_BINDING` equals its value at entry: the early-return paths never
touch it, and the evaluation path restores the saved value by the second
`mem::swap`. -/
theorem update_ok_currentBinding (fuel : Nat) (s : EngineState) (p : Nat)
    (s' : EngineState) (u : Unit) (h : update fuel s p = (s', .ok u)) :
    s'.currentBinding = s.currentBinding := by
  cases fuel with
  | zero => simp [update] at h
  | succ f =>
    simp only [update] at h
    split at h
    · injection h with h1 _; rw [← h1]
    · split at h
      · simp at h
      · split at h
        · injection h with h1 _; rw [← h1]
        · split at h
          · injection h with h1 _; rw [← h1]
          · split at h
            · split at h
              · injection h with h1 _; rw [← h1]
              · simp at h
            · split at h
              · simp at h
              · simp at h
            · split at h
              · simp at h
              · simp at h

/-- On every successful exit of `Property::get` the thread-local
`CURRENT_BINDING` equals its value at entry. -/
theorem get_ok_currentBinding (fuel : Nat) (s : EngineState) (p : Nat)
    (s' : EngineState) (v : Int) (h : get fuel s p = (s', .ok v)) :
    s'.currentBinding = s.currentBinding := by
  rw [get_eq] at h
  rcases hupd : update fuel s p with ⟨s1, o⟩
  rw [hupd] at h
  cases o with
  | ok u =>
    simp only [obind] at h
    rcases hreg : register_current_binding_as_dependency s1 p with ⟨s2, o2⟩
    rw [hreg] at h
    have hr : s2.currentBinding = s1.currentBinding := by
      have := register_preserves s1 p
      rw [hreg] at this
      exact this.1
    cases o2 with
    | ok u2 =>
      simp only [obind] at h
      have h2 : s' = s2 := by
        cases hf2 : s2.heap.find p with
        | none => rw [hf2] at h; simp at h
        | some n =>
          rw [hf2] at h
          dsimp only at h
          by_cases hu : n.updating = true
          · rw [if_pos hu] at h; simp at h
          · rw [if_neg hu] at h
            injection h with h1 _
            rw [← h1]
      rw [h2, hr, update_ok_currentBinding fuel s p s1 u hupd]
    | err => simp only [obind] at h; simp at h
    | noFuel => simp only [obind] at h; simp at h
  | err => simp only [obind] at h; simp at h
  | noFuel => simp only [obind] at h; simp at h

/-! ## Claim theorems (first batch) -/

/-- A state with a single property that is mid-evaluation (its `RefCell` is
mutably borrowed by an evaluation frame further up the call stack). -/
def midEval : EngineState :=
  { heap := [(0, { dirty := true, updating := true })], currentBinding := some 0 }

/-- The diamond dependency graph 0 → {1, 2} → 3: node 3 is registered as a
dependent of both 1 and 2. -/
def diamondHeap : Heap :=
  [(0, { dependencies := [1, 2] }), (1, { dependencies := [3] }),
   (2, { dependencies := [3] }), (3, {})]

/-- C1: re-entrant evaluation of a node that is already mid-evaluation is
detected and reported as an error (`update`'s initial borrow panics — the
`BindingLoopError` of the spec) rather than recursing; in particular, after
`a.set_binding(|| b.get()); b.set_binding(|| a.get())` the call `a.get()`
fails fast with this error instead of looping forever or silently returning
a value. -/
theorem c1_binding_loop_error :
    (∀ (fuel : Nat) (s : EngineState) (p : Nat) (n : Node),
        s.heap.find p = some n → n.updating = true →
        update (fuel + 1) s p = (s, .err) ∧ get (fuel + 1) s p = (s, .err)) ∧
    runHigh 12 initTwo cycleScript = (cycleState, [], .ok ()) ∧
    (get 12 cycleState 0).2 = .err :=
  ⟨fun fuel s p n hf hu =>
    ⟨update_of_updating fuel s p n hf hu, get_of_updating fuel s p n hf hu⟩,
   cycleRun, rfl⟩

/-- Witness for C1 at the concrete mid-evaluation state. -/
theorem c1_binding_loop_error_witness :
    midEval.heap.find 0 = some { dirty := true, updating := true } ∧
    get 12 midEval 0 = (midEval, .err) :=
  ⟨rfl, (c1_binding_loop_error.1 11 midEval 0 { dirty := true, updating := true } rfl rfl).2⟩

/-- C2: with `area.set_binding(|| width.get() * height.get())`, after
`width.set(4); height.set(8)` the call `area.get()` returns `32`, and after a
further `width.set(10)` it returns `80`, with no second `set_binding` call:
invalidation flows through the discovered dependency edges. -/
theorem c2_dependency_propagation :
    (runHigh 12 initThree areaScript).2 = ([32, 80], .ok ()) := by
  rw [areaRun]

/-- C5 counterexample: in the branch-rewiring scenario the third evaluation of
node 3 read only properties 0 and 2 (the selector is 0), leaving node 3 clean;
yet `set` on property 1 — read only by the earlier evaluations — still marks
node 3 dirty, because the edge 1 → 3 recorded by the second evaluation was
never consumed by a propagation and is not cleared when node 3 re-evaluates.
This refutes "stale edges from a previous branch do not trigger spurious
invalidation". -/
theorem c5_stale_edge_counterexample :
    runHigh 12 initFour staleScript = (c5s9, [10, 11, 20], .ok ()) ∧
    (c5s9.heap.find 3).map Node.dirty = some false ∧
    (c5s9.heap.find 1).map Node.dependencies = some [3] ∧
    ((set 12 c5s9 1 99).1.heap.find 3).map Node.dirty = some true :=
  ⟨staleRun, rfl, rfl, rfl⟩

/-- C5 (amended): after an evaluation the node is registered as a dependent of
every property read during that evaluation — a `set` on a property read by the
last evaluation marks it dirty, and a `set` on a property it never read does
not; but dependent edges recorded by earlier evaluations persist until a
propagation consumes them, so a `set` on a property read only in an earlier
evaluation can still mark the node dirty (a spurious wake-up), after which the
next `get` re-evaluates and returns the correct value. -/
theorem c5_rewiring_amended :
    ((set 12 c5s5 2 99).1.heap.find 3).map Node.dirty = some false ∧
    ((set 12 c5s5 1 99).1.heap.find 3).map Node.dirty = some true ∧
    (get 12 (set 12 c5s9 1 99).1 3).2 = .ok 20 :=
  ⟨rfl, rfl, rfl⟩

/-- C6 counterexample: after `0.set_binding(|| 1.get()); 0.get(); 0.set(5);
1.set(7)` node 0 has `binding = None` and `dirty = true`: the stale edge
0-as-dependent-of-1 survives the binding removal, and `mark_dirty` sets the
dirty flag of a binding-less node.  This refutes "if `binding` is `None`,
`dirty` is always `false`". -/
theorem c6_plain_dirty_counterexample :
    runHigh 12 initTwo c6Script = (c6s4, [0], .ok ()) ∧
    (c6s4.heap.find 0).map (fun n => (n.binding, n.dirty)) = some (none, true) :=
  ⟨c6Run, rfl⟩

/-- C6 (amended): a node with `binding = None` can be dirty (when a
propagation reaches it after its binding was removed), but a plain value is
nonetheless always current: `get` on a binding-less node returns the stored
value regardless of the dirty flag. -/
theorem c6_plain_value_always_current :
    ∀ (fuel : Nat) (s : EngineState) (p : Nat) (n : Node),
      s.heap.find p = some n → n.binding = none → n.updating = false →
      (get (fuel + 1) s p).2 = .ok n.value :=
  get_value_of_no_binding

/-- Witness for the amended C6 at the dirty binding-less node of the
counterexample state. -/
theorem c6_plain_value_always_current_witness :
    c6s4.heap.find 0 = some { value := 5, dirty := true } ∧
    (get 12 c6s4 0).2 = .ok 5 :=
  ⟨rfl, c6_plain_value_always_current 11 c6s4 0 { value := 5, dirty := true } rfl rfl rfl⟩

/-- C7 counterexample: in the diamond graph 0 → {1, 2} → 3 a single
propagation started at 0 marks node 3 dirty twice (once via 1 and once via 2):
a dependent node is not visited at most once per propagation.  (Each *edge* is
consumed at most once; the per-node bound fails.) -/
theorem c7_visit_twice_counterexample :
    (markDirty 12 diamondHeap 0).2 = .ok () ∧
    (markDirty 12 diamondHeap 0).1.2.count 3 = 2 :=
  ⟨rfl, rfl⟩

/-- C8 counterexample: before `a.get()` on the two-cycle the thread-local
marker is `none`; the call fails with the loop error, and afterwards the
marker is `some 1` — the innermost evaluation frame's value — because the
panic unwinds past both `mem::swap` restorations.  This refutes "restored to
exactly its pre-call value on every exit path". -/
theorem c8_marker_counterexample :
    cycleState.currentBinding = none ∧
    (get 12 cycleState 0).2 = .err ∧
    (get 12 cycleState 0).1.currentBinding = some 1 :=
  ⟨rfl, rfl, rfl⟩

/-- C8 (amended): the ambient marker is saved before a binding runs and
restored on every *successful* exit of `update` and `get` (early returns never
touch it, the evaluation path restores it), so nested evaluations compose; on
the panic exit taken by loop detection the marker is not restored. -/
theorem c8_marker_restored_on_success :
    (∀ (fuel : Nat) (s : EngineState) (p : Nat) (s' : EngineState) (u : Unit),
        update fuel s p = (s', .ok u) → s'.currentBinding = s.currentBinding) ∧
    (∀ (fuel : Nat) (s : EngineState) (p : Nat) (s' : EngineState) (v : Int),
        get fuel s p = (s', .ok v) → s'.currentBinding = s.currentBinding) :=
  ⟨update_ok_currentBinding, get_ok_currentBinding⟩

/-- Witness for the amended C8 on a successful evaluation of the area binding. -/
theorem c8_marker_restored_on_success_witness :
    get 12 c2s3 2 = (c2s4, .ok 32) ∧ c2s4.currentBinding = c2s3.currentBinding :=
  ⟨c2step4, c8_marker_restored_on_success.2 12 c2s3 2 c2s4 32 c2step4⟩

/-! ## Ghost-log lemmas: a node that is mid-evaluation is never re-evaluated -/

/-- `register_current_binding_as_dependency` leaves a mid-evaluation node's
entry untouched (registering on it would panic first) and never logs. -/
theorem register_untouched (s : EngineState) (p n : Nat) (nd : Node)
    (hfn : s.heap.find n = some nd) (hud : nd.updating = true) :
    (register_current_binding_as_dependency s p).1.heap.find n = some nd ∧
    (register_current_binding_as_dependency s p).1.evalLog = s.evalLog := by
  unfold register_current_binding_as_dependency
  cases s.currentBinding with
  | none => exact ⟨hfn, rfl⟩
  | some m =>
    dsimp only
    cases hfp : s.heap.find p with
    | none => exact ⟨hfn, rfl⟩
    | some node =>
      dsimp only
      by_cases hu : node.updating = true
      · rw [if_pos hu]; exact ⟨hfn, rfl⟩
      · rw [if_neg hu]
        have hpn : p ≠ n := by
          intro hpe
          rw [hpe, hfn] at hfp
          injection hfp with he
          rw [he] at hud
          exact hu hud
        refine ⟨?_, rfl⟩
        rw [Heap.find_set_ne _ p n _ (Ne.symm hpn)]
        exact hfn

/-- While a node `n` is mid-evaluation, no run of `update` or of a binding
body evaluates `n` again (re-entry fails before the log append) and `n`'s
heap entry is left untouched, whatever the outcome. -/
theorem no_reentry_log (fuel : Nat) :
    (∀ (s : EngineState) (p n : Nat) (nd : Node),
      s.heap.find n = some nd → nd.updating = true →
      (update fuel s p).1.heap.find n = some nd ∧
      (update fuel s p).1.evalLog.count n = s.evalLog.count n) ∧
    (∀ (e : BExpr) (s : EngineState) (n : Nat) (nd : Node),
      s.heap.find n = some nd → nd.updating = true →
      (evalExpr fuel e s).1.heap.find n = some nd ∧
      (evalExpr fuel e s).1.evalLog.count n = s.evalLog.count n) := by
  induction fuel with
  | zero =>
    constructor
    · intro s p n nd hfn _; exact ⟨hfn, rfl⟩
    · intro e s n nd hfn _; exact ⟨hfn, rfl⟩
  | succ f ih =>
    obtain ⟨ihU, ihE⟩ := ih
    have hstep : ∀ (s : EngineState) (p n : Nat) (nd : Node),
        s.heap.find n = some nd → nd.updating = true →
        (update (f + 1) s p).1.heap.find n = some nd ∧
        (update (f + 1) s p).1.evalLog.count n = s.evalLog.count n := by
      intro s p n nd hfn hud
      simp only [update]
      split
      · exact ⟨hfn, rfl⟩
      · rename_i node hfp
        split
        · exact ⟨hfn, rfl⟩
        · rename_i hu
          split
          · exact ⟨hfn, rfl⟩
          · split
            · exact ⟨hfn, rfl⟩
            · rename_i hd b hb
              have hpn : p ≠ n := by
                intro hpe
                rw [hpe, hfn] at hfp
                injection hfp with he
                rw [he] at hud
                exact hu hud
              have hfn1 :
                  (s.heap.set p { node with updating := true }).find n = some nd := by
                rw [Heap.find_set_ne _ p n _ (Ne.symm hpn)]; exact hfn
              have hcnt1 : (s.evalLog ++ [p]).count n = s.evalLog.count n := by
                rw [List.count_append]
                have : ([p].count n) = 0 := by
                  simp [List.count_singleton', hpn]
                omega
              split
              · rename_i s2 v hev
                have hIH := ihE b.expr
                  { s with heap := s.heap.set p { node with updating := true },
                           currentBinding := some p,
                           evalLog := s.evalLog ++ [p] } n nd hfn1 hud
                rw [hev] at hIH
                obtain ⟨h1, h2⟩ := hIH
                split
                · rename_i n2 hf2
                  constructor
                  · show ((s2.heap.set p _).find n) = some nd
                    rw [Heap.find_set_ne _ p n _ (Ne.symm hpn)]
                    exact h1
                  · show s2.evalLog.count n = s.evalLog.count n
                    rw [h2]; exact hcnt1
                · exact ⟨h1, by rw [h2]; exact hcnt1⟩
              · rename_i s2 hev
                have hIH := ihE b.expr
                  { s with heap := s.heap.set p { node with updating := true },
                           currentBinding := some p,
                           evalLog := s.evalLog ++ [p] } n nd hfn1 hud
                rw [hev] at hIH
                obtain ⟨h1, h2⟩ := hIH
                split
                · rename_i n2 hf2
                  constructor
                  · show ((s2.heap.set p _).find n) = some nd
                    rw [Heap.find_set_ne _ p n _ (Ne.symm hpn)]
                    exact h1
                  · show s2.evalLog.count n = s.evalLog.count n
                    rw [h2]; exact hcnt1
                · exact ⟨h1, by rw [h2]; exact hcnt1⟩
              · rename_i s2 hev
                have hIH := ihE b.expr
                  { s with heap := s.heap.set p { node with updating := true },
                           currentBinding := some p,
                           evalLog := s.evalLog ++ [p] } n nd hfn1 hud
                rw [hev] at hIH
                obtain ⟨h1, h2⟩ := hIH
                split
                · rename_i n2 hf2
                  constructor
                  · show ((s2.heap.set p _).find n) = some nd
                    rw [Heap.find_set_ne _ p n _ (Ne.symm hpn)]
                    exact h1
                  · show s2.evalLog.count n = s.evalLog.count n
                    rw [h2]; exact hcnt1
                · exact ⟨h1, by rw [h2]; exact hcnt1⟩
    refine ⟨hstep, ?_⟩
    intro e s n nd hfn hud
    cases e with
    | const v => exact ⟨hfn, rfl⟩
    | get p =>
      rw [evalExpr_get, get_eq]
      rcases hupd : update f s p with ⟨s1, o⟩
      have hU := ihU s p n nd hfn hud
      rw [hupd] at hU
      obtain ⟨hU1, hU2⟩ := hU
      cases o with
      | ok u =>
        simp only [obind]
        rcases hreg : register_current_binding_as_dependency s1 p with ⟨s2, o2⟩
        have hR := register_untouched s1 p n nd hU1 hud
        rw [hreg] at hR
        obtain ⟨hR1, hR2⟩ := hR
        have hcount : List.count n s2.evalLog = List.count n s.evalLog := by
          rw [hR2]; exact hU2
        cases o2 with
        | ok u2 =>
          simp only [obind]
          cases hf2 : s2.heap.find p with
          | none =>
            simp only [hf2]
            exact ⟨hR1, hcount⟩
          | some m =>
            simp only [hf2]
            split
            · exact ⟨hR1, hcount⟩
            · exact ⟨hR1, hcount⟩
        | err => exact ⟨hR1, hcount⟩
        | noFuel => exact ⟨hR1, hcount⟩
      | err => exact ⟨hU1, hU2⟩
      | noFuel => exact ⟨hU1, hU2⟩
    | add a b =>
      rw [evalExpr_add]
      rcases hev1 : evalExpr f a s with ⟨s1, o1⟩
      have hA := ihE a s n nd hfn hud
      rw [hev1] at hA
      obtain ⟨hA1, hA2⟩ := hA
      cases o1 with
      | ok v1 =>
        simp only [obind]
        rcases hev2 : evalExpr f b s1 with ⟨s2, o2⟩
        have hB := ihE b s1 n nd hA1 hud
        rw [hev2] at hB
        obtain ⟨hB1, hB2⟩ := hB
        cases o2 with
        | ok v2 => exact ⟨hB1, hB2.trans hA2⟩
        | err => exact ⟨hB1, hB2.trans hA2⟩
        | noFuel => exact ⟨hB1, hB2.trans hA2⟩
      | err => exact ⟨hA1, hA2⟩
      | noFuel => exact ⟨hA1, hA2⟩
    | mul a b =>
      rw [evalExpr_mul]
      rcases hev1 : evalExpr f a s with ⟨s1, o1⟩
      have hA := ihE a s n nd hfn hud
      rw [hev1] at hA
      obtain ⟨hA1, hA2⟩ := hA
      cases o1 with
      | ok v1 =>
        simp only [obind]
        rcases hev2 : evalExpr f b s1 with ⟨s2, o2⟩
        have hB := ihE b s1 n nd hA1 hud
        rw [hev2] at hB
        obtain ⟨hB1, hB2⟩ := hB
        cases o2 with
        | ok v2 => exact ⟨hB1, hB2.trans hA2⟩
        | err => exact ⟨hB1, hB2.trans hA2⟩
        | noFuel => exact ⟨hB1, hB2.trans hA2⟩
      | err => exact ⟨hA1, hA2⟩
      | noFuel => exact ⟨hA1, hA2⟩
    | ite c t e2 =>
      rw [evalExpr_ite]
      rcases hev1 : evalExpr f c s with ⟨s1, o1⟩
      have hA := ihE c s n nd hfn hud
      rw [hev1] at hA
      obtain ⟨hA1, hA2⟩ := hA
      cases o1 with
      | ok v1 =>
        simp only [obind]
        by_cases hv : v1 ≠ 0
        · rw [if_pos hv]
          have hB := ihE t s1 n nd hA1 hud
          exact ⟨hB.1, hB.2.trans hA2⟩
        · rw [if_neg hv]
          have hB := ihE e2 s1 n nd hA1 hud
          exact ⟨hB.1, hB.2.trans hA2⟩
      | err => exact ⟨hA1, hA2⟩
      | noFuel => exact ⟨hA1, hA2⟩

/-- `set_binding` never runs the binding: the ghost log is unchanged on every
path. -/
theorem set_binding_log (fuel : Nat) (s : EngineState) (p : Nat) (b : BindingObj) :
    (set_binding fuel s p b).1.evalLog = s.evalLog := by
  unfold set_binding setBindingCommit
  split
  · rfl
  · split
    · rfl
    · split
      · split
        · rfl
        · dsimp only
          split <;> rfl
      · dsimp only
        split <;> rfl

/-- After a successful `update`, if the node still has a binding then its
dirty flag is clear. -/
theorem update_ok_post (fuel : Nat) (s : EngineState) (p : Nat) (s1 : EngineState) (u : Unit)
    (h : update fuel s p = (s1, .ok u)) :
    ∀ n1, s1.heap.find p = some n1 → (n1.binding.isSome → n1.dirty = false) := by
  cases fuel with
  | zero => simp [update] at h
  | succ f =>
    simp only [update] at h
    split at h
    · rename_i hfp
      injection h with h1 _
      subst h1
      intro n1 hn1
      rw [hfp] at hn1
      exact absurd hn1 (by simp)
    · rename_i node hfp
      split at h
      · simp at h
      · rename_i hu
        split at h
        · rename_i hd
          injection h with h1 _
          subst h1
          intro n1 hn1
          rw [hfp] at hn1
          injection hn1 with he
          subst he
          intro _
          revert hd
          cases node.dirty <;> simp
        · split at h
          · rename_i hb
            injection h with h1 _
            subst h1
            intro n1 hn1
            rw [hfp] at hn1
            injection hn1 with he
            subst he
            rw [hb]
            intro hc
            exact absurd hc (by simp)
          · split at h
            · split at h
              · rename_i pr s2 v hev o n2 hf2
                injection h with h1 _
                subst h1
                intro n1 hn1
                have hset := Heap.find_set_self s2.heap p n2
                  { n2 with value := v, dirty := false, updating := false } hf2
                rw [hset] at hn1
                injection hn1 with he
                subst he
                intro _
                rfl
              · simp at h
            · split at h <;> simp at h
            · split at h <;> simp at h

/-- Full description of a successful dependency registration: either no
binding is evaluating (no change), or the current binding was pushed onto the
node's dependents. -/
theorem register_ok_cases (s : EngineState) (p : Nat) (s2 : EngineState) (u : Unit)
    (h : register_current_binding_as_dependency s p = (s2, .ok u)) :
    s2 = s ∨
      ∃ m n, s.currentBinding = some m ∧ s.heap.find p = some n ∧ n.updating = false ∧
        s2 = { s with heap := s.heap.set p { n with dependencies := n.dependencies ++ [m] } } := by
  unfold register_current_binding_as_dependency at h
  split at h
  · injection h with h1 _
    exact Or.inl h1.symm
  · rename_i m hcb
    split at h
    · simp at h
    · rename_i n hfp
      split at h
      · simp at h
      · rename_i hu
        injection h with h1 _
        right
        refine ⟨m, n, hcb, hfp, ?_, h1.symm⟩
        revert hu
        cases n.updating <;> simp

/-- Post-state of a successful `get`: the node exists, is not mid-evaluation,
holds the returned value, and is clean if it has a binding. -/
theorem get_ok_post (fuel : Nat) (s : EngineState) (p : Nat) (s' : EngineState) (v : Int)
    (h : get fuel s p = (s', .ok v)) :
    ∃ n', s'.heap.find p = some n' ∧ n'.updating = false ∧ n'.value = v ∧
      (n'.binding.isSome → n'.dirty = false) := by
  rw [get_eq] at h
  rcases hupd : update fuel s p with ⟨s1, o⟩
  rw [hupd] at h
  cases o with
  | ok u =>
    simp only [obind] at h
    rcases hreg : register_current_binding_as_dependency s1 p with ⟨s2, o2⟩
    rw [hreg] at h
    cases o2 with
    | ok u2 =>
      simp only [obind] at h
      have hpost := update_ok_post fuel s p s1 u hupd
      cases hf2 : s2.heap.find p with
      | none => rw [hf2] at h; simp at h
      | some n2 =>
        rw [hf2] at h
        dsimp only at h
        by_cases hu : n2.updating = true
        · rw [if_pos hu] at h; simp at h
        · rw [if_neg hu] at h
          injection h with h1 h2
          injection h2 with h2
          subst h1
          refine ⟨n2, hf2, ?_, h2, ?_⟩
          · revert hu; cases n2.updating <;> simp
          · rcases register_ok_cases s1 p s2 u2 hreg with hcase | ⟨m, n1, _, hfp1, _, hs2⟩
            · subst hcase
              exact hpost n2 hf2
            · subst hs2
              have := Heap.find_set_self s1.heap p n1
                { n1 with dependencies := n1.dependencies ++ [m] } hfp1
              dsimp only at hf2
              rw [this] at hf2
              injection hf2 with he
              have hbd := hpost n1 hfp1
              rw [← he]
              exact hbd
    | err => simp only [obind] at h; simp at h
    | noFuel => simp only [obind] at h; simp at h
  | err => simp only [obind] at h; simp at h
  | noFuel => simp only [obind] at h; simp at h

/-- A successful `update` of a dirty node with a binding logs exactly one
evaluation of that node: the node itself is appended once, and the nested
evaluation cannot re-enter it. -/
theorem update_count_binding (fuel : Nat) (s : EngineState) (p : Nat) (n : Node)
    (b : BindingObj) (s1 : EngineState) (u : Unit)
    (hf : s.heap.find p = some n) (hu : n.updating = false) (hd : n.dirty = true)
    (hb : n.binding = some b) (h : update (fuel + 1) s p = (s1, .ok u)) :
    s1.evalLog.count p = s.evalLog.count p + 1 := by
  simp only [update, hf] at h
  rw [hu] at h
  simp only [Bool.false_eq_true, if_false] at h
  rw [show (!n.dirty) = false from by rw [hd]; rfl] at h
  simp only [Bool.false_eq_true, if_false] at h
  rw [hb] at h
  dsimp only at h
  have hfindX := Heap.find_set_self s.heap p n
    { value := n.value, binding := some b, dependencies := n.dependencies, dirty := n.dirty,
      updating := true } hf
  have hno := (no_reentry_log fuel).2 b.expr
    { heap := s.heap.set p
        { value := n.value, binding := some b, dependencies := n.dependencies,
          dirty := n.dirty, updating := true },
      currentBinding := some p, evalLog := s.evalLog ++ [p] } p
    { value := n.value, binding := some b, dependencies := n.dependencies, dirty := n.dirty,
      updating := true } hfindX rfl
  have happ : (s.evalLog ++ [p]).count p = s.evalLog.count p + 1 := by
    simp [List.count_append]
  split at h
  · rename_i pr s2 v hev
    rw [hev] at hno
    split at h
    · rename_i o n2 hf2
      injection h with h1 _
      subst h1
      show s2.evalLog.count p = s.evalLog.count p + 1
      rw [hno.2]
      exact happ
    · simp at h
  · split at h <;> simp at h
  · rename_i pr s2 hev
    split at h <;> simp at h

/-- A successful `get` of a dirty bound node invokes the binding exactly once:
the node's id is logged once more than before. -/
theorem get_eval_once (fuel : Nat) (s : EngineState) (p : Nat) (n : Node) (b : BindingObj)
    (s' : EngineState) (v : Int)
    (hf : s.heap.find p = some n) (hu : n.updating = false) (hd : n.dirty = true)
    (hb : n.binding = some b) (h : get (fuel + 1) s p = (s', .ok v)) :
    s'.evalLog.count p = s.evalLog.count p + 1 := by
  rw [get_eq] at h
  rcases hupd : update (fuel + 1) s p with ⟨s1, o⟩
  rw [hupd] at h
  cases o with
  | ok u =>
    have hc1 := update_count_binding fuel s p n b s1 u hf hu hd hb hupd
    simp only [obind] at h
    rcases hreg : register_current_binding_as_dependency s1 p with ⟨s2, o2⟩
    rw [hreg] at h
    have hlog2 : s2.evalLog = s1.evalLog := by
      have := register_preserves s1 p
      rw [hreg] at this
      exact this.2
    cases o2 with
    | ok u2 =>
      simp only [obind] at h
      split at h
      · split at h
        · simp at h
        · injection h with h1 _
          subst h1
          show s2.evalLog.count p = s.evalLog.count p + 1
          rw [hlog2]
          exact hc1
      · simp at h
    | err => simp only [obind] at h; simp at h
    | noFuel => simp only [obind] at h; simp at h
  | err => simp only [obind] at h; simp at h
  | noFuel => simp only [obind] at h; simp at h

/-- A second `get` immediately after a successful one does no evaluation at
all (the ghost log is unchanged) and returns the same value. -/
theorem get_again (fuel : Nat) (s : EngineState) (p : Nat) (s' : EngineState) (v : Int)
    (h : get fuel s p = (s', .ok v)) :
    (get fuel s' p).1.evalLog = s'.evalLog ∧ (get fuel s' p).2 = .ok v := by
  obtain ⟨n', hf', hu', hv', hbd'⟩ := get_ok_post fuel s p s' v h
  cases fuel with
  | zero =>
    rw [get_eq] at h
    simp only [update, obind] at h
    simp at h
  | succ f =>
    have hupd : update (f + 1) s' p = (s', .ok ()) := by
      cases hdd : n'.dirty with
      | true =>
        have hbn : n'.binding = none := by
          cases hbb : n'.binding with
          | none => rfl
          | some bb =>
            have hdf := hbd' (by rw [hbb]; rfl)
            rw [hdd] at hdf
            simp at hdf
        simp only [update, hf']
        rw [hu']
        simp only [Bool.false_eq_true, if_false]
        rw [show (!n'.dirty) = false from by rw [hdd]; rfl]
        simp only [Bool.false_eq_true, if_false]
        rw [hbn]
      | false =>
        simp only [update, hf']
        rw [hu']
        simp only [Bool.false_eq_true, if_false]
        rw [show (!n'.dirty) = true from by rw [hdd]; rfl]
        simp only [if_true]
    rw [get_eq, hupd]
    simp only [obind]
    cases hcb : s'.currentBinding with
    | none =>
      have hr : register_current_binding_as_dependency s' p = (s', .ok ()) := by
        unfold register_current_binding_as_dependency
        rw [hcb]
      rw [hr]
      simp only [obind, hf']
      rw [hu']
      simp only [Bool.false_eq_true, if_false]
      refine ⟨?_, ?_⟩
      · first
        | rfl
        | trivial
      · show Outcome.ok n'.value = Outcome.ok v
        rw [hv']
    | some m =>
      have hr : register_current_binding_as_dependency s' p =
          ({ s' with heap := s'.heap.set p { n' with dependencies := n'.dependencies ++ [m] } }, .ok ()) := by
        unfold register_current_binding_as_dependency
        rw [hcb]
        dsimp only
        rw [hf']
        dsimp only
        rw [hu']
        simp only [Bool.false_eq_true, if_false]
      rw [hr]
      simp only [obind]
      have hfind2 := Heap.find_set_self s'.heap p n'
        { n' with dependencies := n'.dependencies ++ [m] } hf'
      simp only [hfind2]
      rw [show ({ n' with dependencies := n'.dependencies ++ [m] } : Node).updating = false
        from hu']
      simp only [Bool.false_eq_true, if_false]
      refine ⟨?_, ?_⟩
      · first
        | rfl
        | trivial
      · show Outcome.ok n'.value = Outcome.ok v
        rw [hv']

/-- C3: `set_binding(f)` never invokes `f` (the ghost log of binding
invocations is unchanged on every `set_binding` path); the first `get` of the
freshly bound (dirty, quiescent) node invokes the binding exactly once; and a
further `get` with no intervening invalidation invokes no binding at all and
returns the cached value — so any number of `get` calls after `set_binding`
invoke the binding at most once in total. -/
theorem c3_binding_laziness :
    (∀ (fuel : Nat) (s : EngineState) (p : Nat) (b : BindingObj),
        (set_binding fuel s p b).1.evalLog = s.evalLog) ∧
    (∀ (fuel : Nat) (s : EngineState) (p : Nat) (n : Node) (b : BindingObj)
        (s' : EngineState) (v : Int),
        s.heap.find p = some n → n.updating = false → n.dirty = true →
        n.binding = some b → get (fuel + 1) s p = (s', .ok v) →
        s'.evalLog.count p = s.evalLog.count p + 1) ∧
    (∀ (fuel : Nat) (s : EngineState) (p : Nat) (s' : EngineState) (v : Int),
        get fuel s p = (s', .ok v) →
        (get fuel s' p).1.evalLog = s'.evalLog ∧ (get fuel s' p).2 = .ok v) :=
  ⟨set_binding_log,
   fun fuel s p n b s' v hf hu hd hb h => get_eval_once fuel s p n b s' v hf hu hd hb h,
   get_again⟩

/-- Witness for C3 on the concrete two-node scenario: installing the binding
logs nothing, the first `get` logs one invocation, the second logs none. -/
theorem c3_binding_laziness_witness :
    (set_binding 12 initTwo 0 { expr := .get 1 }).1.evalLog = initTwo.evalLog ∧
    c6s2.evalLog.count 0 = c6s1.evalLog.count 0 + 1 ∧
    ((get 12 c6s2 0).1.evalLog = c6s2.evalLog ∧ (get 12 c6s2 0).2 = .ok 0) :=
  ⟨c3_binding_laziness.1 12 initTwo 0 { expr := .get 1 },
   c3_binding_laziness.2.1 11 c6s1 0
     { value := 0, binding := some { expr := .get 1 }, dirty := true } { expr := .get 1 }
     c6s2 0 rfl rfl rfl rfl c6step2,
   c3_binding_laziness.2.2 12 c6s1 0 c6s2 0 c6step2⟩

/-! ## Preservation lemmas for C4 -/

/-- The heap component of an `mbind` whose continuation keeps the heap. -/
theorem mbind_heap (x : (Heap × List Nat) × Outcome Unit)
    (g : Heap → List Nat → Unit → (Heap × List Nat) × Outcome Unit)
    (hg : ∀ h tr u, (g h tr u).1.1 = h) : (mbind x g).1.1 = x.1.1 := by
  rcases x with ⟨⟨h, tr⟩, o⟩
  cases o with
  | ok u => simp only [mbind]; exact hg h tr u
  | err => rfl
  | noFuel => rfl

/-- Dirty propagation only writes `dirty` and `dependencies`: every node's
value, binding and borrow flag are untouched, whatever the outcome. -/
theorem markDirty_preserves (fuel : Nat) :
    (∀ (h : Heap) (p q : Nat) (nd : Node), h.find q = some nd →
      ∃ nd', (markDirty fuel h p).1.1.find q = some nd' ∧ nd'.value = nd.value ∧
        nd'.binding = nd.binding ∧ nd'.updating = nd.updating) ∧
    (∀ (h : Heap) (ds : List Nat) (q : Nat) (nd : Node), h.find q = some nd →
      ∃ nd', (markDirtyList fuel h ds).1.1.find q = some nd' ∧ nd'.value = nd.value ∧
        nd'.binding = nd.binding ∧ nd'.updating = nd.updating) := by
  induction fuel with
  | zero =>
    constructor
    · intro h p q nd hq; exact ⟨nd, hq, rfl, rfl, rfl⟩
    · intro h ds q nd hq
      cases ds with
      | nil => exact ⟨nd, hq, rfl, rfl, rfl⟩
      | cons d ds' => exact ⟨nd, hq, rfl, rfl, rfl⟩
  | succ f ih =>
    obtain ⟨ihD, ihL⟩ := ih
    have hD : ∀ (h : Heap) (p q : Nat) (nd : Node), h.find q = some nd →
        ∃ nd', (markDirty (f + 1) h p).1.1.find q = some nd' ∧ nd'.value = nd.value ∧
          nd'.binding = nd.binding ∧ nd'.updating = nd.updating := by
      intro h p q nd hq
      simp only [markDirty]
      cases hfp : h.find p with
      | none => exact ⟨nd, hq, rfl, rfl, rfl⟩
      | some n =>
        dsimp only
        by_cases hu : n.updating = true
        · rw [if_pos hu]; exact ⟨nd, hq, rfl, rfl, rfl⟩
        · rw [if_neg hu]
          have hq1 : ∃ nd1, (h.set p { n with dirty := true, dependencies := [] }).find q
              = some nd1 ∧ nd1.value = nd.value ∧ nd1.binding = nd.binding ∧
              nd1.updating = nd.updating := by
            by_cases hpq : q = p
            · subst hpq
              rw [hq] at hfp
              injection hfp with he
              subst he
              exact ⟨_, Heap.find_set_self h q nd _ hq, rfl, rfl, rfl⟩
            · rw [Heap.find_set_ne h p q _ hpq]
              exact ⟨nd, hq, rfl, rfl, rfl⟩
          obtain ⟨nd1, hf1, hv1, hb1, hu1⟩ := hq1
          obtain ⟨nd2, hf2, hv2, hb2, hu2⟩ := ihL _ n.dependencies q nd1 hf1
          refine ⟨nd2, ?_, hv2.trans hv1, hb2.trans hb1, hu2.trans hu1⟩
          rw [mbind_heap _ _ (fun _ _ _ => rfl)]
          exact hf2
    refine ⟨hD, ?_⟩
    intro h ds q nd hq
    cases ds with
    | nil => exact ⟨nd, hq, rfl, rfl, rfl⟩
    | cons d ds' =>
      simp only [markDirtyList]
      obtain ⟨nd1, hf1, hv1, hb1, hu1⟩ := ihD h d q nd hq
      rcases hrun : markDirty f h d with ⟨⟨h1, tr1⟩, o1⟩
      rw [hrun] at hf1
      cases o1 with
      | ok u =>
        obtain ⟨nd2, hf2, hv2, hb2, hu2⟩ := ihL h1 ds' q nd1 hf1
        refine ⟨nd2, ?_, hv2.trans hv1, hb2.trans hb1, hu2.trans hu1⟩
        show (mbind (markDirtyList f h1 ds') fun h2 tr2 _ =>
          ((h2, tr1 ++ tr2), Outcome.ok ())).1.1.find q = some nd2
        rw [mbind_heap _ _ (fun _ _ _ => rfl)]
        exact hf2
      | err => exact ⟨nd1, hf1, hv1, hb1, hu1⟩
      | noFuel => exact ⟨nd1, hf1, hv1, hb1, hu1⟩

/-- The node `p` holds the plain (binding-less, not mid-evaluation) value `v`. -/
def PlainAt (s : EngineState) (p : Nat) (v : Int) : Prop :=
  ∃ n, s.heap.find p = some n ∧ n.value = v ∧ n.binding = none ∧ n.updating = false

/-- Registering a dependency preserves a plain value anywhere (it only pushes
onto a dependents list). -/
theorem register_preserves_plain (s : EngineState) (q p : Nat) (v : Int)
    (hp : PlainAt s p v) : PlainAt (register_current_binding_as_dependency s q).1 p v := by
  obtain ⟨n, hfp, hv, hbn, hun⟩ := hp
  unfold register_current_binding_as_dependency
  cases s.currentBinding with
  | none => exact ⟨n, hfp, hv, hbn, hun⟩
  | some m =>
    dsimp only
    cases hfq : s.heap.find q with
    | none => exact ⟨n, hfp, hv, hbn, hun⟩
    | some nq =>
      dsimp only
      by_cases hu : nq.updating = true
      · rw [if_pos hu]; exact ⟨n, hfp, hv, hbn, hun⟩
      · rw [if_neg hu]
        by_cases hqp : q = p
        · subst hqp
          rw [hfp] at hfq
          injection hfq with he
          subst he
          exact ⟨_, Heap.find_set_self s.heap q n _ hfp, hv, hbn, hun⟩
        · refine ⟨n, ?_, hv, hbn, hun⟩
          show ((s.heap.set q _).find p) = some n
          rw [Heap.find_set_ne s.heap q p _ (fun he => hqp he.symm)]
          exact hfp

/-- Binding evaluation preserves a plain value: `update` and `evalExpr` never
change the value, binding or borrow flag of a node that has no binding,
whatever node they target and however they exit. -/
theorem eval_preserves_plain (fuel : Nat) :
    (∀ (s : EngineState) (q p : Nat) (v : Int), PlainAt s p v →
      PlainAt (update fuel s q).1 p v) ∧
    (∀ (e : BExpr) (s : EngineState) (p : Nat) (v : Int), PlainAt s p v →
      PlainAt (evalExpr fuel e s).1 p v) := by
  induction fuel with
  | zero =>
    constructor
    · intro s q p v hp; exact hp
    · intro e s p v hp; exact hp
  | succ f ih =>
    obtain ⟨ihU, ihE⟩ := ih
    have hstep : ∀ (s : EngineState) (q p : Nat) (v : Int), PlainAt s p v →
        PlainAt (update (f + 1) s q).1 p v := by
      intro s q p v hp
      obtain ⟨n, hfp, hv, hbn, hun⟩ := hp
      simp only [update]
      split
      · exact ⟨n, hfp, hv, hbn, hun⟩
      · rename_i node hfq
        split
        · exact ⟨n, hfp, hv, hbn, hun⟩
        · split
          · exact ⟨n, hfp, hv, hbn, hun⟩
          · split
            · exact ⟨n, hfp, hv, hbn, hun⟩
            · rename_i hd ob b hb
              have hqp : q ≠ p := by
                intro he
                rw [he, hfp] at hfq
                injection hfq with h2
                rw [← h2, hbn] at hb
                exact absurd hb (by simp)
              have hp1 : PlainAt
                  { s with heap := s.heap.set q { node with updating := true },
                           currentBinding := some q,
                           evalLog := s.evalLog ++ [q] } p v := by
                refine ⟨n, ?_, hv, hbn, hun⟩
                show ((s.heap.set q _).find p) = some n
                rw [Heap.find_set_ne s.heap q p _ (fun he => hqp he.symm)]
                exact hfp
              split
              · rename_i pr s2 v2 hev
                have hIH := ihE b.expr _ p v hp1
                rw [hev] at hIH
                obtain ⟨n2, hf2, hv2, hb2, hu2⟩ := hIH
                split
                · rename_i o2 nq2 hfq2
                  refine ⟨n2, ?_, hv2, hb2, hu2⟩
                  show ((s2.heap.set q _).find p) = some n2
                  rw [Heap.find_set_ne s2.heap q p _ (fun he => hqp he.symm)]
                  exact hf2
                · exact ⟨n2, hf2, hv2, hb2, hu2⟩
              · rename_i pr s2 hev
                have hIH := ihE b.expr _ p v hp1
                rw [hev] at hIH
                obtain ⟨n2, hf2, hv2, hb2, hu2⟩ := hIH
                split
                · rename_i o2 nq2 hfq2
                  refine ⟨n2, ?_, hv2, hb2, hu2⟩
                  show ((s2.heap.set q _).find p) = some n2
                  rw [Heap.find_set_ne s2.heap q p _ (fun he => hqp he.symm)]
                  exact hf2
                · exact ⟨n2, hf2, hv2, hb2, hu2⟩
              · rename_i pr s2 hev
                have hIH := ihE b.expr _ p v hp1
                rw [hev] at hIH
                obtain ⟨n2, hf2, hv2, hb2, hu2⟩ := hIH
                split
                · rename_i o2 nq2 hfq2
                  refine ⟨n2, ?_, hv2, hb2, hu2⟩
                  show ((s2.heap.set q _).find p) = some n2
                  rw [Heap.find_set_ne s2.heap q p _ (fun he => hqp he.symm)]
                  exact hf2
                · exact ⟨n2, hf2, hv2, hb2, hu2⟩
    refine ⟨hstep, ?_⟩
    intro e s p v hp
    cases e with
    | const c => exact hp
    | get q =>
      rw [evalExpr_get, get_eq]
      rcases hupd : update f s q with ⟨s1, o⟩
      have hU := ihU s q p v hp
      rw [hupd] at hU
      cases o with
      | ok u =>
        simp only [obind]
        rcases hreg : register_current_binding_as_dependency s1 q with ⟨s2, o2⟩
        have hR := register_preserves_plain s1 q p v hU
        rw [hreg] at hR
        cases o2 with
        | ok u2 =>
          simp only [obind]
          cases hf2 : s2.heap.find q with
          | none => simp only [hf2]; exact hR
          | some m =>
            simp only [hf2]
            split
            · exact hR
            · exact hR
        | err => exact hR
        | noFuel => exact hR
      | err => exact hU
      | noFuel => exact hU
    | add a b =>
      rw [evalExpr_add]
      rcases hev1 : evalExpr f a s with ⟨s1, o1⟩
      have hA := ihE a s p v hp
      rw [hev1] at hA
      cases o1 with
      | ok v1 =>
        simp only [obind]
        rcases hev2 : evalExpr f b s1 with ⟨s2, o2⟩
        have hB := ihE b s1 p v hA
        rw [hev2] at hB
        cases o2 <;> exact hB
      | err => exact hA
      | noFuel => exact hA
    | mul a b =>
      rw [evalExpr_mul]
      rcases hev1 : evalExpr f a s with ⟨s1, o1⟩
      have hA := ihE a s p v hp
      rw [hev1] at hA
      cases o1 with
      | ok v1 =>
        simp only [obind]
        rcases hev2 : evalExpr f b s1 with ⟨s2, o2⟩
        have hB := ihE b s1 p v hA
        rw [hev2] at hB
        cases o2 <;> exact hB
      | err => exact hA
      | noFuel => exact hA
    | ite c t e2 =>
      rw [evalExpr_ite]
      rcases hev1 : evalExpr f c s with ⟨s1, o1⟩
      have hA := ihE c s p v hp
      rw [hev1] at hA
      cases o1 with
      | ok v1 =>
        simp only [obind]
        by_cases hvv : v1 ≠ 0
        · rw [if_pos hvv]; exact ihE t s1 p v hA
        · rw [if_neg hvv]; exact ihE e2 s1 p v hA
      | err => exact hA
      | noFuel => exact hA

/-- `get` preserves a plain value held anywhere. -/
theorem get_preserves_plain (fuel : Nat) (s : EngineState) (q p : Nat) (v : Int)
    (hp : PlainAt s p v) : PlainAt (get fuel s q).1 p v := by
  rw [get_eq]
  rcases hupd : update fuel s q with ⟨s1, o⟩
  have hU := (eval_preserves_plain fuel).1 s q p v hp
  rw [hupd] at hU
  cases o with
  | ok u =>
    simp only [obind]
    rcases hreg : register_current_binding_as_dependency s1 q with ⟨s2, o2⟩
    have hR := register_preserves_plain s1 q p v hU
    rw [hreg] at hR
    cases o2 with
    | ok u2 =>
      simp only [obind]
      cases hf2 : s2.heap.find q with
      | none => simp only [hf2]; exact hR
      | some m =>
        simp only [hf2]
        split
        · exact hR
        · exact hR
    | err => exact hR
    | noFuel => exact hR
  | err => exact hU
  | noFuel => exact hU

/-- Unfolding lemma for `set` (the plain `unfold` is shadowed by the monadic
`set` of the ambient library). -/
theorem set_eq (fuel : Nat) (s : EngineState) (p : Nat) (t : Int) :
    set fuel s p t = match s.heap.find p with
      | none => (s, .err)
      | some n =>
        if n.updating then (s, .err)
        else match n.binding with
          | some b => if !b.allowReplaceValue then (s, .ok ()) else setCommit fuel s p n t
          | none => setCommit fuel s p n t := rfl

/-- `set` on a different node preserves a plain value: the direct write is to
the other node and the propagation only touches dirty flags and dependents. -/
theorem set_preserves_plain (fuel : Nat) (s : EngineState) (q : Nat) (t : Int) (p : Nat)
    (v : Int) (hqp : q ≠ p) (hp : PlainAt s p v) : PlainAt (set fuel s q t).1 p v := by
  obtain ⟨n, hfp, hv, hbn, hun⟩ := hp
  have hcommit : ∀ nq, PlainAt (setCommit fuel s q nq t).1 p v := by
    intro nq
    unfold setCommit
    dsimp only
    have hfp1 : (s.heap.set q { nq with binding := none, dirty := false, value := t }).find p
        = some n := by
      rw [Heap.find_set_ne s.heap q p _ (fun he => hqp he.symm)]
      exact hfp
    obtain ⟨n2, hf2, hv2, hb2, hu2⟩ := (markDirty_preserves fuel).1
      (s.heap.set q { nq with binding := none, dirty := false, value := t }) q p n hfp1
    rcases hmd : markDirty fuel
        (s.heap.set q { nq with binding := none, dirty := false, value := t }) q
        with ⟨⟨h2, tr⟩, o⟩
    rw [hmd] at hf2
    cases o with
    | ok u =>
      dsimp only
      cases hfq2 : h2.find q with
      | none => exact ⟨n2, hf2, hv2.trans hv, hb2.trans hbn, hu2.trans hun⟩
      | some nq2 =>
        dsimp only
        refine ⟨n2, ?_, hv2.trans hv, hb2.trans hbn, hu2.trans hun⟩
        show ((h2.set q _).find p) = some n2
        rw [Heap.find_set_ne h2 q p _ (fun he => hqp he.symm)]
        exact hf2
    | err => exact ⟨n2, hf2, hv2.trans hv, hb2.trans hbn, hu2.trans hun⟩
    | noFuel => exact ⟨n2, hf2, hv2.trans hv, hb2.trans hbn, hu2.trans hun⟩
  rw [set_eq]
  split
  · exact ⟨n, hfp, hv, hbn, hun⟩
  · rename_i nq hfq
    split
    · exact ⟨n, hfp, hv, hbn, hun⟩
    · split
      · split
        · exact ⟨n, hfp, hv, hbn, hun⟩
        · exact hcommit nq
      · exact hcommit nq

/-- `set_binding` on a different node preserves a plain value. -/
theorem set_binding_preserves_plain (fuel : Nat) (s : EngineState) (q : Nat) (b : BindingObj)
    (p : Nat) (v : Int) (hqp : q ≠ p) (hp : PlainAt s p v) :
    PlainAt (set_binding fuel s q b).1 p v := by
  obtain ⟨n, hfp, hv, hbn, hun⟩ := hp
  have hcommit : ∀ nq, PlainAt (setBindingCommit fuel s q nq b).1 p v := by
    intro nq
    unfold setBindingCommit
    dsimp only
    have hfp1 : (s.heap.set q { nq with binding := some b }).find p = some n := by
      rw [Heap.find_set_ne s.heap q p _ (fun he => hqp he.symm)]
      exact hfp
    obtain ⟨n2, hf2, hv2, hb2, hu2⟩ := (markDirty_preserves fuel).1
      (s.heap.set q { nq with binding := some b }) q p n hfp1
    rcases hmd : markDirty fuel (s.heap.set q { nq with binding := some b }) q
        with ⟨⟨h2, tr⟩, o⟩
    rw [hmd] at hf2
    cases o <;> exact ⟨n2, hf2, hv2.trans hv, hb2.trans hbn, hu2.trans hun⟩
  unfold set_binding
  split
  · exact ⟨n, hfp, hv, hbn, hun⟩
  · rename_i nq hfq
    split
    · exact ⟨n, hfp, hv, hbn, hun⟩
    · split
      · split
        · exact ⟨n, hfp, hv, hbn, hun⟩
        · exact hcommit nq
      · exact hcommit nq

/-- An operation whose direct mutation target is not `p` (reads are always
allowed). -/
def Op.avoids : Op → Nat → Prop
  | .get _, _ => True
  | .set q _, p => q ≠ p
  | .setBinding q _, p => q ≠ p

/-- A sequence of operations that never directly mutates `p` preserves `p`'s
plain value, wherever the run stops. -/
theorem runHigh_preserves_plain (fuel : Nat) (ops : List Op) :
    ∀ (s : EngineState) (p : Nat) (v : Int), PlainAt s p v →
    (∀ op ∈ ops, op.avoids p) → PlainAt (runHigh fuel s ops).1 p v := by
  induction ops with
  | nil => intro s p v hp _; exact hp
  | cons op ops' ih =>
    intro s p v hp hav
    have havop := hav op (List.mem_cons_self _ _)
    have havrest := fun o ho => hav o (List.mem_cons_of_mem _ ho)
    cases op with
    | get q =>
      simp only [runHigh]
      rcases hg : get fuel s q with ⟨s1, o⟩
      have h1 := get_preserves_plain fuel s q p v hp
      rw [hg] at h1
      cases o with
      | ok w => exact ih s1 p v h1 havrest
      | err => exact h1
      | noFuel => exact h1
    | set q t =>
      simp only [runHigh]
      rcases hg : set fuel s q t with ⟨s1, o⟩
      have h1 := set_preserves_plain fuel s q t p v havop hp
      rw [hg] at h1
      cases o with
      | ok w => exact ih s1 p v h1 havrest
      | err => exact h1
      | noFuel => exact h1
    | setBinding q e =>
      simp only [runHigh]
      rcases hg : set_binding fuel s q { expr := e } with ⟨s1, o⟩
      have h1 := set_binding_preserves_plain fuel s q { expr := e } p v havop hp
      rw [hg] at h1
      cases o with
      | ok w => exact ih s1 p v h1 havrest
      | err => exact h1
      | noFuel => exact h1

/-- A successful `set` through the default replacement policy leaves the node
holding the plain value: binding removed, not mid-evaluation, value stored. -/
theorem set_ok_plain (fuel : Nat) (s : EngineState) (p : Nat) (n : Node) (b : BindingObj)
    (t : Int) (s1 : EngineState) (u : Unit)
    (hf : s.heap.find p = some n) (hbb : n.binding = some b)
    (hallow : b.allowReplaceValue = true) (hun : n.updating = false)
    (h : set fuel s p t = (s1, .ok u)) : PlainAt s1 p t := by
  rw [set_eq, hf] at h
  dsimp only at h
  rw [hun] at h
  simp only [Bool.false_eq_true, if_false] at h
  rw [hbb] at h
  dsimp only at h
  rw [show (!b.allowReplaceValue) = false from by rw [hallow]; rfl] at h
  simp only [Bool.false_eq_true, if_false] at h
  unfold setCommit at h
  dsimp only at h
  have hfp1 := Heap.find_set_self s.heap p n
    { n with binding := none, dirty := false, value := t } hf
  obtain ⟨n2, hf2, hv2, hb2, hu2⟩ := (markDirty_preserves fuel).1
    (s.heap.set p { n with binding := none, dirty := false, value := t }) p p
    { n with binding := none, dirty := false, value := t } hfp1
  rcases hmd : markDirty fuel
      (s.heap.set p { n with binding := none, dirty := false, value := t }) p
      with ⟨⟨h2, tr⟩, o⟩
  rw [hmd] at hf2 h
  cases o with
  | ok w =>
    dsimp only at h
    rw [hf2] at h
    dsimp only at h
    injection h with h1 _
    subst h1
    refine ⟨{ n2 with dirty := false }, Heap.find_set_self h2 p n2 _ hf2, hv2, hb2, hu2.trans hun⟩
  | err => simp at h
  | noFuel => simp at h

/-- C4: when the installed binding accepts replacement by a value (the
default), `set(v)` removes it permanently: whatever later operations run, so
long as none of them directly `set`s or re-binds the property itself, a later
`get` still returns `v` — the removed binding's former dependencies cannot
resurrect the computed value. -/
theorem c4_value_replaces_binding (fuel : Nat) (s : EngineState) (p : Nat) (n : Node)
    (b : BindingObj) (t : Int) (s1 : EngineState) (ops : List Op) (fuel2 g : Nat)
    (hf : s.heap.find p = some n) (hbb : n.binding = some b)
    (hallow : b.allowReplaceValue = true) (hun : n.updating = false)
    (hset : set fuel s p t = (s1, .ok ()))
    (hav : ∀ op ∈ ops, op.avoids p) :
    (get (g + 1) (runHigh fuel2 s1 ops).1 p).2 = .ok t := by
  have h1 := set_ok_plain fuel s p n b t s1 () hf hbb hallow hun hset
  have h2 := runHigh_preserves_plain fuel2 ops s1 p t h1 hav
  obtain ⟨n', hf', hv', hb', hu'⟩ := h2
  have := get_value_of_no_binding g (runHigh fuel2 s1 ops).1 p n' hf' hb' hu'
  rw [this, hv']

/-- Witness for C4: replace the evaluated binding of node 0 by the value 5,
then set its former dependency 1; `get` still returns 5. -/
theorem c4_value_replaces_binding_witness :
    set 12 c6s2 0 5 = (c6s3, .ok ()) ∧
    (get 12 (runHigh 12 c6s3 [Op.set 1 7]).1 0).2 = .ok 5 :=
  ⟨c6step3,
   c4_value_replaces_binding 12 c6s2 0
     { value := 0, binding := some { expr := .get 1 } } { expr := .get 1 } 5 c6s3
     [Op.set 1 7] 12 11 rfl rfl rfl rfl c6step3
     (fun op hop => by
       rw [List.mem_singleton] at hop
       subst hop
       exact Nat.one_ne_zero)⟩

/-! ## Termination of dirty propagation (C7) -/

/-- With fuel beyond twice the edge count, a propagation over a quiescent
heap runs to completion; edges only disappear, quiescence and key-uniqueness
are preserved, and the number of dirty-markings is bounded by the number of
consumed edges (plus one for the root). -/
theorem markDirty_terminates (fuel : Nat) :
    (∀ (h : Heap) (p : Nat), h.Quiescent → h.NodupKeys → 2 * h.edges + 1 ≤ fuel →
      ∃ h' tr, markDirty fuel h p = ((h', tr), .ok ()) ∧ h'.edges ≤ h.edges ∧
        h'.Quiescent ∧ h'.NodupKeys ∧ tr.length + h'.edges ≤ h.edges + 1) ∧
    (∀ (h : Heap) (ds : List Nat), h.Quiescent → h.NodupKeys →
      2 * h.edges + 2 * ds.length ≤ fuel →
      ∃ h' tr, markDirtyList fuel h ds = ((h', tr), .ok ()) ∧ h'.edges ≤ h.edges ∧
        h'.Quiescent ∧ h'.NodupKeys ∧ tr.length + h'.edges ≤ h.edges + ds.length) := by
  induction fuel with
  | zero =>
    constructor
    · intro h p _ _ hle; omega
    · intro h ds hq hn hle
      cases ds with
      | nil => exact ⟨h, [], rfl, le_refl _, hq, hn, by simp⟩
      | cons d ds' => simp only [List.length_cons] at hle; omega
  | succ f ih =>
    obtain ⟨ihD, ihL⟩ := ih
    have hD : ∀ (h : Heap) (p : Nat), h.Quiescent → h.NodupKeys →
        2 * h.edges + 1 ≤ f + 1 →
        ∃ h' tr, markDirty (f + 1) h p = ((h', tr), .ok ()) ∧ h'.edges ≤ h.edges ∧
          h'.Quiescent ∧ h'.NodupKeys ∧ tr.length + h'.edges ≤ h.edges + 1 := by
      intro h p hq hn hle
      simp only [markDirty]
      cases hfp : h.find p with
      | none => exact ⟨h, [], rfl, le_refl _, hq, hn, by simp⟩
      | some n =>
        dsimp only
        rw [if_neg (show ¬ (n.updating = true) from by rw [hq.findQ hfp]; simp)]
        have hedges := Heap.edges_set hn { n with dirty := true, dependencies := [] } hfp
        simp only [List.length_nil, Nat.add_zero] at hedges
        have hnu : n.updating = false := hq.findQ hfp
        have hmu : ({ n with dirty := true, dependencies := [] } : Node).updating = false := hnu
        have hq1 : (h.set p { n with dirty := true, dependencies := [] }).Quiescent :=
          hq.setQ hmu
        have hn1 := hn.setK p { n with dirty := true, dependencies := [] }
        have hlen : n.dependencies.length ≤ h.edges := by omega
        have hfuel1 : 2 * (h.set p { n with dirty := true, dependencies := [] }).edges
            + 2 * n.dependencies.length ≤ f := by omega
        obtain ⟨h', tr, hrun, he', hq', hn', hb'⟩ :=
          ihL (h.set p { n with dirty := true, dependencies := [] }) n.dependencies hq1 hn1
            hfuel1
        refine ⟨h', p :: tr, ?_, by omega, hq', hn', by simp only [List.length_cons]; omega⟩
        rw [hrun]
        rfl
    refine ⟨hD, ?_⟩
    intro h ds hq hn hle
    cases ds with
    | nil => exact ⟨h, [], rfl, le_refl _, hq, hn, by simp⟩
    | cons d ds' =>
      simp only [markDirtyList]
      have hfd : 2 * h.edges + 1 ≤ f := by
        simp only [List.length_cons] at hle
        omega
      obtain ⟨h1, tr1, hrun1, he1, hq1, hn1, hb1⟩ := ihD h d hq hn hfd
      have hfl : 2 * h1.edges + 2 * ds'.length ≤ f := by
        simp only [List.length_cons] at hle
        omega
      obtain ⟨h2, tr2, hrun2, he2, hq2, hn2, hb2⟩ := ihL h1 ds' hq1 hn1 hfl
      refine ⟨h2, tr1 ++ tr2, ?_, by omega, hq2, hn2, ?_⟩
      · rw [hrun1]
        simp only [mbind]
        rw [hrun2]
      · simp only [List.length_append, List.length_cons]
        omega

/-- C7 (amended): a dirty propagation over any finite quiescent graph —
cycles and diamonds included — runs to completion given fuel beyond twice the
edge count, and performs at most `edges + 1` dirty-markings (each dependency
edge is consumed at most once); a single *node* can however be visited more
than once, as the diamond counterexample shows. -/
theorem c7_propagation_terminates (h : Heap) (p : Nat) (fuel : Nat)
    (hq : h.Quiescent) (hn : h.NodupKeys) (hfuel : 2 * h.edges + 1 ≤ fuel) :
    (markDirty fuel h p).2 = .ok () ∧ (markDirty fuel h p).1.2.length ≤ h.edges + 1 := by
  obtain ⟨h', tr, hrun, he', _, _, hb⟩ := (markDirty_terminates fuel).1 h p hq hn hfuel
  rw [hrun]
  exact ⟨rfl, by simp only; omega⟩

/-- Witness for the amended C7 on the diamond graph (4 edges, 5 markings
bound,ter­mination with fuel 12). -/
theorem c7_propagation_terminates_witness :
    diamondHeap.Quiescent ∧ diamondHeap.NodupKeys ∧ 2 * diamondHeap.edges + 1 ≤ 12 ∧
    ((markDirty 12 diamondHeap 0).2 = .ok () ∧
      (markDirty 12 diamondHeap 0).1.2.length ≤ diamondHeap.edges + 1) :=
  ⟨by decide, by decide, by decide,
   c7_propagation_terminates diamondHeap 0 12 (by decide) (by decide) (by decide)⟩

/-! ## Foreign-handle parity (C9) -/

/-- After a successful registration the node still exists and keeps its
borrow flag and value: reading the slot directly (low-level) agrees with the
checked clone (high-level). -/
theorem register_keeps_node (s1 : EngineState) (p : Nat) (n : Node)
    (hf : s1.heap.find p = some n) (hu : n.updating = false) :
    (obind (register_current_binding_as_dependency s1 p) fun s2 _ =>
      match s2.heap.find p with
      | some n2 => (s2, Outcome.ok n2.value)
      | none => (s2, .err)) =
    (obind (register_current_binding_as_dependency s1 p) fun s2 _ =>
      match s2.heap.find p with
      | some n2 => if n2.updating then (s2, .err) else (s2, .ok n2.value)
      | none => (s2, .err)) := by
  obtain ⟨h1, cb1, lg1⟩ := s1
  simp only at hf
  unfold register_current_binding_as_dependency
  cases cb1 with
  | none =>
    dsimp only
    simp only [obind]
    rw [hf]
    dsimp only
    rw [hu]
    simp only [Bool.false_eq_true, if_false]
  | some m =>
    dsimp only
    rw [hf]
    dsimp only
    have hcond : ¬ (n.updating = true) := by rw [hu]; simp
    rw [if_neg hcond]
    simp only [obind]
    have hfind2 := Heap.find_set_self h1 p n
      { n with dependencies := n.dependencies ++ [m] } hf
    rw [hfind2]
    dsimp only
    rw [if_neg hcond]

/-- `sixtyfps_property_update` coincides with `Property::get` exactly: the
low-level refresh-then-read through the opaque handle is the inlining of
`update`, dependency registration, and the value clone. -/
theorem ffi_update_eq_get (fuel : Nat) (s : EngineState) (p : Nat) :
    sixtyfps_property_update fuel s p = get fuel s p := by
  cases fuel with
  | zero => rfl
  | succ f =>
    rw [get_eq]
    simp only [sixtyfps_property_update, update]
    cases hfp : s.heap.find p with
    | none =>
      simp only [obind]
      unfold register_current_binding_as_dependency
      cases hcb : s.currentBinding with
      | none => simp only [obind, hfp]
      | some m => simp only [hfp, obind]
    | some n =>
      dsimp only
      by_cases hu : n.updating = true
      · rw [if_pos hu, if_pos hu]
        rfl
      · rw [if_neg hu, if_neg hu]
        have hun : n.updating = false := by revert hu; cases n.updating <;> simp
        by_cases hd : (!n.dirty) = true
        · rw [if_pos hd, if_pos hd]
          simp only [obind]
          exact register_keeps_node s p n hfp hun
        · rw [if_neg hd, if_neg hd]
          cases hb : n.binding with
          | none =>
            simp only [obind]
            exact register_keeps_node s p n hfp hun
          | some b =>
            dsimp only
            rcases hev : evalExpr f b.expr { s with heap := s.heap.set p { value := n.value, binding := some b, dependencies := n.dependencies, dirty := n.dirty, updating := true }, currentBinding := some p, evalLog := s.evalLog ++ [p] } with ⟨s2, o⟩
            cases o with
            | ok v =>
              cases hf2 : s2.heap.find p with
              | none =>
                dsimp only
                rw [hf2]
                rfl
              | some n2 =>
                dsimp only
                rw [hf2]
                dsimp only
                simp only [obind]
                exact register_keeps_node _ p
                  { n2 with value := v, dirty := false, updating := false }
                  (Heap.find_set_self s2.heap p n2 _ hf2) rfl
            | err =>
              cases hf2 : s2.heap.find p with
              | none =>
                dsimp only
                rw [hf2]
                rfl
              | some n2 =>
                dsimp only
                rw [hf2]
                rfl
            | noFuel =>
              cases hf2 : s2.heap.find p with
              | none =>
                dsimp only
                rw [hf2]
                rfl
              | some n2 =>
                dsimp only
                rw [hf2]
                rfl

/-- In a duplicate-free heap, every entry is found under its key. -/
theorem Heap.find_of_mem {h : Heap} (hn : h.NodupKeys) {e : Nat × Node} (he : e ∈ h) :
    h.find e.1 = some e.2 := by
  induction h with
  | nil => exact absurd he (List.not_mem_nil e)
  | cons f t ih =>
    obtain ⟨k, v⟩ := f
    unfold Heap.NodupKeys at hn
    simp only [List.map_cons, List.nodup_cons] at hn
    rcases List.mem_cons.mp he with he1 | he1
    · subst he1
      rw [Heap.find_cons, if_pos rfl]
    · rw [Heap.find_cons]
      have hk : k ≠ e.1 := by
        intro hke
        apply hn.1
        rw [hke]
        exact List.mem_map.mpr ⟨e, he1, rfl⟩
      rw [if_neg hk]
      exact ih hn.2 he1

/-- `sixtyfps_property_set_binding` coincides with `Property::set_binding`
when the installed binding (if any) uses the default replacement policy — the
only difference between the two is that the low-level entry point skips the
`allow_replace_binding_with_binding` query. -/
theorem ffi_set_binding_eq (fuel : Nat) (s : EngineState) (p : Nat) (b : BindingObj)
    (hd : s.heap.DefaultBindings) :
    sixtyfps_property_set_binding fuel s p b = set_binding fuel s p b := by
  unfold sixtyfps_property_set_binding set_binding setBindingCommit
  cases hfp : s.heap.find p with
  | none => rfl
  | some n =>
    dsimp only
    by_cases hu : n.updating = true
    · rw [if_pos hu, if_pos hu]
    · rw [if_neg hu, if_neg hu]
      cases hb : n.binding with
      | none => rfl
      | some eb =>
        dsimp only
        have hall := hd.findD hfp
        rw [hb] at hall
        have hall2 : (eb.allowReplaceValue && eb.allowReplaceBinding) = true := hall
        have hrb : (!eb.allowReplaceBinding) = false := by
          cases h1 : eb.allowReplaceBinding
          · rw [h1] at hall2; simp at hall2
          · rfl
        rw [hrb]
        simp only [Bool.false_eq_true, if_false]

/-- Over a quiescent heap dirty propagation never panics, and it preserves
quiescence, the key list, and the default replacement policy of every
binding. -/
theorem markDirty_inv (fuel : Nat) :
    (∀ (h : Heap) (p : Nat), h.Quiescent →
      (markDirty fuel h p).2 ≠ .err ∧ (markDirty fuel h p).1.1.Quiescent ∧
      (markDirty fuel h p).1.1.map Prod.fst = h.map Prod.fst ∧
      (h.DefaultBindings → (markDirty fuel h p).1.1.DefaultBindings)) ∧
    (∀ (h : Heap) (ds : List Nat), h.Quiescent →
      (markDirtyList fuel h ds).2 ≠ .err ∧ (markDirtyList fuel h ds).1.1.Quiescent ∧
      (markDirtyList fuel h ds).1.1.map Prod.fst = h.map Prod.fst ∧
      (h.DefaultBindings → (markDirtyList fuel h ds).1.1.DefaultBindings)) := by
  induction fuel with
  | zero =>
    constructor
    · intro h p hq; exact ⟨by simp [markDirty], hq, rfl, fun hd => hd⟩
    · intro h ds hq
      cases ds with
      | nil => exact ⟨by simp [markDirtyList], hq, rfl, fun hd => hd⟩
      | cons d ds' => exact ⟨by simp [markDirtyList], hq, rfl, fun hd => hd⟩
  | succ f ih =>
    obtain ⟨ihD, ihL⟩ := ih
    have hD : ∀ (h : Heap) (p : Nat), h.Quiescent →
        (markDirty (f + 1) h p).2 ≠ .err ∧ (markDirty (f + 1) h p).1.1.Quiescent ∧
        (markDirty (f + 1) h p).1.1.map Prod.fst = h.map Prod.fst ∧
        (h.DefaultBindings → (markDirty (f + 1) h p).1.1.DefaultBindings) := by
      intro h p hq
      simp only [markDirty]
      cases hfp : h.find p with
      | none => exact ⟨by simp, hq, rfl, fun hd => hd⟩
      | some n =>
        dsimp only
        rw [if_neg (show ¬ (n.updating = true) from by rw [hq.findQ hfp]; simp)]
        have hnu : n.updating = false := hq.findQ hfp
        have hmu : ({ n with dirty := true, dependencies := [] } : Node).updating = false := hnu
        have hq1 : (h.set p { n with dirty := true, dependencies := [] }).Quiescent :=
          hq.setQ hmu
        obtain ⟨hL1, hL2, hL3, hL4⟩ :=
          ihL (h.set p { n with dirty := true, dependencies := [] }) n.dependencies hq1
        rcases hrun : markDirtyList f (h.set p { n with dirty := true, dependencies := [] })
            n.dependencies with ⟨⟨h2, tr⟩, o⟩
        rw [hrun] at hL1 hL2 hL3 hL4
        refine ⟨?_, ?_, ?_, ?_⟩
        · cases o with
          | ok u => simp [mbind]
          | err => exact absurd rfl hL1
          | noFuel => simp [mbind]
        · cases o <;> simp only [mbind] <;> exact hL2
        · cases o <;> simp only [mbind] <;>
            exact hL3.trans (Heap.set_keys h p { n with dirty := true, dependencies := [] })
        · intro hd
          have hd1 : (h.set p { n with dirty := true, dependencies := [] }).DefaultBindings := by
            refine hd.setD ?_
            have := hd.findD hfp
            exact this
          cases o <;> simp only [mbind] <;> exact hL4 hd1
    refine ⟨hD, ?_⟩
    intro h ds hq
    cases ds with
    | nil => exact ⟨by simp [markDirtyList], hq, rfl, fun hd => hd⟩
    | cons d ds' =>
      simp only [markDirtyList]
      obtain ⟨hD1, hD2, hD3, hD4⟩ := ihD h d hq
      rcases hrun : markDirty f h d with ⟨⟨h1, tr1⟩, o1⟩
      rw [hrun] at hD1 hD2 hD3 hD4
      cases o1 with
      | ok u =>
        simp only [mbind]
        obtain ⟨hL1, hL2, hL3, hL4⟩ := ihL h1 ds' hD2
        rcases hrun2 : markDirtyList f h1 ds' with ⟨⟨h2, tr2⟩, o2⟩
        rw [hrun2] at hL1 hL2 hL3 hL4
        cases o2 with
        | ok u2 =>
          exact ⟨fun hc => Outcome.noConfusion hc, hL2, hL3.trans hD3, fun hd => hL4 (hD4 hd)⟩
        | err => exact absurd rfl hL1
        | noFuel =>
          exact ⟨fun hc => Outcome.noConfusion hc, hL2, hL3.trans hD3, fun hd => hL4 (hD4 hd)⟩
      | err => exact absurd rfl hD1
      | noFuel => exact ⟨fun hc => Outcome.noConfusion hc, hD2, hD3, hD4⟩

/-! ## Heap preservation facts for the foreign-handle parity argument -/

/-- A heap transition that keeps the key list and, pointwise, every surviving
node's borrow flag and binding.  Dependency registration and binding
evaluation are such transitions: they never install, remove or leave borrowed
a binding. -/
def StepInv (h h' : Heap) : Prop :=
  h'.map Prod.fst = h.map Prod.fst ∧
  ∀ q n2, h'.find q = some n2 → ∃ n, h.find q = some n ∧
    n2.updating = n.updating ∧ n2.binding = n.binding

theorem stepInv_rfl (h : Heap) : StepInv h h :=
  ⟨rfl, fun _ n2 hf => ⟨n2, hf, rfl, rfl⟩⟩

theorem stepInv_trans {h1 h2 h3 : Heap} (a : StepInv h1 h2) (b : StepInv h2 h3) :
    StepInv h1 h3 := by
  refine ⟨b.1.trans a.1, fun q n3 hf3 => ?_⟩
  obtain ⟨m2, hf2, hu32, hb32⟩ := b.2 q n3 hf3
  obtain ⟨m1, hf1, hu21, hb21⟩ := a.2 q m2 hf2
  exact ⟨m1, hf1, hu32.trans hu21, hb32.trans hb21⟩

theorem stepInv_set {h : Heap} {p : Nat} {n m : Node} (hf : h.find p = some n)
    (hu : m.updating = n.updating) (hb : m.binding = n.binding) :
    StepInv h (h.set p m) := by
  refine ⟨Heap.set_keys h p m, fun q n2 hf2 => ?_⟩
  by_cases hqp : q = p
  · subst hqp
    rw [Heap.find_set_self h q n m hf] at hf2
    injection hf2 with he
    subst he
    exact ⟨n, hf, hu, hb⟩
  · rw [Heap.find_set_ne h p q m hqp] at hf2
    exact ⟨n2, hf2, rfl, rfl⟩

theorem nodupKeys_of_keys_eq {h h2 : Heap} (he : h2.map Prod.fst = h.map Prod.fst)
    (hn : h.NodupKeys) : h2.NodupKeys := by
  unfold Heap.NodupKeys at hn ⊢
  rw [he]
  exact hn

theorem stepInv_nodup {h h2 : Heap} (hs : StepInv h h2) (hn : h.NodupKeys) :
    h2.NodupKeys := nodupKeys_of_keys_eq hs.1 hn

theorem stepInv_quiescent {h h2 : Heap} (hs : StepInv h h2) (hn : h.NodupKeys)
    (hq : h.Quiescent) : h2.Quiescent := by
  intro e he
  have hf := Heap.find_of_mem (stepInv_nodup hs hn) he
  obtain ⟨n, hfn, hu, _⟩ := hs.2 e.1 e.2 hf
  rw [hu]
  exact hq.findQ hfn

theorem stepInv_defaults {h h2 : Heap} (hs : StepInv h h2) (hn : h.NodupKeys)
    (hd : h.DefaultBindings) : h2.DefaultBindings := by
  intro e he
  have hf := Heap.find_of_mem (stepInv_nodup hs hn) he
  obtain ⟨n, hfn, _, hb⟩ := hs.2 e.1 e.2 hf
  rw [hb]
  exact hd.findD hfn

theorem register_stepInv (s : EngineState) (p : Nat) :
    StepInv s.heap (register_current_binding_as_dependency s p).1.heap := by
  unfold register_current_binding_as_dependency
  cases s.currentBinding with
  | none => exact stepInv_rfl s.heap
  | some m =>
    dsimp only
    cases hfp : s.heap.find p with
    | none => exact stepInv_rfl s.heap
    | some n =>
      dsimp only
      by_cases hu : n.updating = true
      · rw [if_pos hu]; exact stepInv_rfl s.heap
      · rw [if_neg hu]
        exact stepInv_set hfp rfl rfl

theorem stepInv_obind {α β : Type} (h0 : Heap) (x : EngineState × Outcome α)
    (f : EngineState → α → EngineState × Outcome β)
    (hx : StepInv h0 x.1.heap) (hf : ∀ t a, StepInv t.heap (f t a).1.heap) :
    StepInv h0 (obind x f).1.heap := by
  rcases x with ⟨t, o⟩
  cases o with
  | ok a => exact stepInv_trans hx (hf t a)
  | err => exact hx
  | noFuel => exact hx

/-- Abort exit of an evaluation whose node has vanished from the heap: the
evaluation itself already satisfies the preservation property relative to the
pre-borrow heap because the vanished node constrains nothing. -/
theorem stepInv_evalAbort (s s2 : EngineState) (p : Nat) (n : Node)
    (hfp : s.heap.find p = some n)
    (hinv : StepInv (s.heap.set p { n with updating := true }) s2.heap)
    (hf2 : s2.heap.find p = none) : StepInv s.heap s2.heap := by
  refine ⟨hinv.1.trans (Heap.set_keys s.heap p _), fun q n2 hfq => ?_⟩
  by_cases hqp : q = p
  · subst hqp
    rw [hfq] at hf2
    simp at hf2
  · obtain ⟨n1, hfn1, hu1, hb1⟩ := hinv.2 q n2 hfq
    rw [Heap.find_set_ne s.heap p q _ hqp] at hfn1
    exact ⟨n1, hfn1, hu1, hb1⟩

/-- Normal exit of an evaluation: the final write restores the borrow flag and
keeps the binding, so the whole borrow/evaluate/write cycle is
preservation-respecting. -/
theorem stepInv_evalFix (s s2 : EngineState) (p : Nat) (n n2 m : Node)
    (hfp : s.heap.find p = some n) (hun : n.updating = false)
    (hinv : StepInv (s.heap.set p { n with updating := true }) s2.heap)
    (hf2 : s2.heap.find p = some n2)
    (hmu : m.updating = false) (hmb : m.binding = n2.binding) :
    StepInv s.heap (s2.heap.set p m) := by
  have hkeys : (s2.heap.set p m).map Prod.fst = s.heap.map Prod.fst :=
    (Heap.set_keys s2.heap p m).trans (hinv.1.trans (Heap.set_keys s.heap p _))
  refine ⟨hkeys, fun q n3 hfq => ?_⟩
  by_cases hqp : q = p
  · subst hqp
    rw [Heap.find_set_self s2.heap q n2 m hf2] at hfq
    injection hfq with he
    subst he
    obtain ⟨n1, hfn1, hu1, hb1⟩ := hinv.2 q n2 hf2
    rw [Heap.find_set_self s.heap q n { n with updating := true } hfp] at hfn1
    injection hfn1 with he1
    refine ⟨n, hfp, ?_, ?_⟩
    · rw [hmu, hun]
    · rw [hmb, hb1, ← he1]
  · rw [Heap.find_set_ne s2.heap p q m hqp] at hfq
    obtain ⟨n1, hfn1, hu1, hb1⟩ := hinv.2 q n3 hfq
    rw [Heap.find_set_ne s.heap p q _ hqp] at hfn1
    exact ⟨n1, hfn1, hu1, hb1⟩

/-- `update` and `evalExpr` keep the key list and every node's borrow flag and
binding, whatever the outcome: the only borrow they take is released on every
exit path of the frame that took it, and no binding is ever written. -/
theorem eval_stepInv (fuel : Nat) :
    (∀ (s : EngineState) (p : Nat), StepInv s.heap (update fuel s p).1.heap) ∧
    (∀ (e : BExpr) (s : EngineState), StepInv s.heap (evalExpr fuel e s).1.heap) := by
  induction fuel with
  | zero => exact ⟨fun s p => stepInv_rfl s.heap, fun e s => stepInv_rfl s.heap⟩
  | succ f ih =>
    obtain ⟨ihU, ihE⟩ := ih
    have hU : ∀ (s : EngineState) (p : Nat), StepInv s.heap (update (f + 1) s p).1.heap := by
      intro s p
      simp only [update]
      cases hfp : s.heap.find p with
      | none => exact stepInv_rfl s.heap
      | some n =>
        dsimp only
        by_cases hu : n.updating = true
        · rw [if_pos hu]; exact stepInv_rfl s.heap
        · rw [if_neg hu]
          have hun : n.updating = false := by revert hu; cases n.updating <;> simp
          by_cases hd : (!n.dirty) = true
          · rw [if_pos hd]; exact stepInv_rfl s.heap
          · rw [if_neg hd]
            cases hb : n.binding with
            | none => exact stepInv_rfl s.heap
            | some b =>
              dsimp only
              rcases hev : evalExpr f b.expr { s with heap := s.heap.set p { value := n.value, binding := some b, dependencies := n.dependencies, dirty := n.dirty, updating := true }, currentBinding := some p, evalLog := s.evalLog ++ [p] } with ⟨s2, o⟩
              have hinv0 : StepInv (s.heap.set p { value := n.value, binding := some b, dependencies := n.dependencies, dirty := n.dirty, updating := true }) s2.heap := by
                have h0 := ihE b.expr { s with heap := s.heap.set p { value := n.value, binding := some b, dependencies := n.dependencies, dirty := n.dirty, updating := true }, currentBinding := some p, evalLog := s.evalLog ++ [p] }
                rw [hev] at h0
                exact h0
              have hinv : StepInv (s.heap.set p { n with updating := true }) s2.heap := by
                show StepInv (s.heap.set p { value := n.value, binding := n.binding, dependencies := n.dependencies, dirty := n.dirty, updating := true }) s2.heap
                rw [hb]
                exact hinv0
              cases o with
              | ok v =>
                cases hf2 : s2.heap.find p with
                | none =>
                  dsimp only
                  rw [hf2]
                  exact stepInv_evalAbort s s2 p n hfp hinv hf2
                | some n2 =>
                  dsimp only
                  rw [hf2]
                  exact stepInv_evalFix s s2 p n n2 _ hfp hun hinv hf2 rfl rfl
              | err =>
                cases hf2 : s2.heap.find p with
                | none =>
                  dsimp only
                  rw [hf2]
                  exact stepInv_evalAbort s s2 p n hfp hinv hf2
                | some n2 =>
                  dsimp only
                  rw [hf2]
                  exact stepInv_evalFix s s2 p n n2 _ hfp hun hinv hf2 rfl rfl
              | noFuel =>
                cases hf2 : s2.heap.find p with
                | none =>
                  dsimp only
                  rw [hf2]
                  exact stepInv_evalAbort s s2 p n hfp hinv hf2
                | some n2 =>
                  dsimp only
                  rw [hf2]
                  exact stepInv_evalFix s s2 p n n2 _ hfp hun hinv hf2 rfl rfl
    refine ⟨hU, ?_⟩
    intro e s
    cases e with
    | const n => exact stepInv_rfl s.heap
    | get p =>
      rw [evalExpr_get, get_eq]
      refine stepInv_obind s.heap _ _ (ihU s p) ?_
      intro t a
      refine stepInv_obind t.heap _ _ (register_stepInv t p) ?_
      intro t2 a2
      cases hf : t2.heap.find p with
      | none => exact stepInv_rfl t2.heap
      | some n =>
        dsimp only
        by_cases hu : n.updating = true
        · rw [if_pos hu]; exact stepInv_rfl t2.heap
        · rw [if_neg hu]; exact stepInv_rfl t2.heap
    | add a b =>
      rw [evalExpr_add]
      refine stepInv_obind s.heap _ _ (ihE a s) ?_
      intro t va
      refine stepInv_obind t.heap _ _ (ihE b t) ?_
      intro t2 vb
      exact stepInv_rfl t2.heap
    | mul a b =>
      rw [evalExpr_mul]
      refine stepInv_obind s.heap _ _ (ihE a s) ?_
      intro t va
      refine stepInv_obind t.heap _ _ (ihE b t) ?_
      intro t2 vb
      exact stepInv_rfl t2.heap
    | ite c t e =>
      rw [evalExpr_ite]
      refine stepInv_obind s.heap _ _ (ihE c s) ?_
      intro t1 vc
      by_cases hvc : vc ≠ 0
      · rw [if_pos hvc]; exact ihE t t1
      · rw [if_neg hvc]; exact ihE e t1

theorem get_heap_stepInv (fuel : Nat) (s : EngineState) (p : Nat) :
    StepInv s.heap (get fuel s p).1.heap := by
  have h0 := (eval_stepInv (fuel + 1)).2 (.get p) s
  rw [evalExpr_get] at h0
  exact h0

/-- The standing well-formedness invariant of the engine between public calls:
no duplicate handles, no live borrow, only default replacement policies. -/
def WF (h : Heap) : Prop := h.NodupKeys ∧ h.Quiescent ∧ h.DefaultBindings

theorem stepInv_wf {h h2 : Heap} (hs : StepInv h h2) (hw : WF h) : WF h2 :=
  ⟨stepInv_nodup hs hw.1, stepInv_quiescent hs hw.1 hw.2.1,
   stepInv_defaults hs hw.1 hw.2.2⟩

/-! ## Congruence of dirty propagation across the two `set` entry points -/

/-- The node fields dirty propagation reads (it never reads `binding` or
`dirty`). -/
def MdRel (n1 n2 : Node) : Prop :=
  n1.value = n2.value ∧ n1.dependencies = n2.dependencies ∧ n1.updating = n2.updating

/-- Two heaps with the same handles in the same order that agree everywhere
except possibly at `p`, where the two nodes may still differ in `binding` and
`dirty`. -/
def HeapRel (p : Nat) : Heap → Heap → Prop
  | [], [] => True
  | e1 :: t1, e2 :: t2 =>
    e1.1 = e2.1 ∧ (e1.1 ≠ p → e1.2 = e2.2) ∧ MdRel e1.2 e2.2 ∧ HeapRel p t1 t2
  | _, _ => False

theorem heapRel_refl (p : Nat) (h : Heap) : HeapRel p h h := by
  induction h with
  | nil => trivial
  | cons e t ih => exact ⟨rfl, fun _ => rfl, ⟨rfl, rfl, rfl⟩, ih⟩

theorem heapRel_find {p : Nat} {h1 h2 : Heap} (hr : HeapRel p h1 h2) (q : Nat) :
    (h1.find q = none ∧ h2.find q = none) ∨
    ∃ n1 n2, h1.find q = some n1 ∧ h2.find q = some n2 ∧ (q ≠ p → n1 = n2) ∧ MdRel n1 n2 := by
  induction h1 generalizing h2 with
  | nil =>
    cases h2 with
    | nil => exact Or.inl ⟨rfl, rfl⟩
    | cons e2 t2 => exact False.elim hr
  | cons e1 t1 ih =>
    cases h2 with
    | nil => exact False.elim hr
    | cons e2 t2 =>
      obtain ⟨k1, m1⟩ := e1
      obtain ⟨k2, m2⟩ := e2
      obtain ⟨hk, hne, hmd, ht⟩ := hr
      have hk2 : k1 = k2 := hk
      subst hk2
      by_cases hkq : k1 = q
      · right
        refine ⟨m1, m2, ?_, ?_, ?_, hmd⟩
        · rw [Heap.find_cons, if_pos hkq]
        · rw [Heap.find_cons, if_pos hkq]
        · intro hqp
          exact hne (show k1 ≠ p from by rw [hkq]; exact hqp)
      · rw [Heap.find_cons, if_neg hkq, Heap.find_cons, if_neg hkq]
        exact ih ht

theorem heapRel_set {p : Nat} {h1 h2 : Heap} (hr : HeapRel p h1 h2) (q : Nat) (m1 m2 : Node)
    (hm : q ≠ p → m1 = m2) (hmd : MdRel m1 m2) :
    HeapRel p (h1.set q m1) (h2.set q m2) := by
  induction h1 generalizing h2 with
  | nil =>
    cases h2 with
    | nil => trivial
    | cons e2 t2 => exact False.elim hr
  | cons e1 t1 ih =>
    cases h2 with
    | nil => exact False.elim hr
    | cons e2 t2 =>
      obtain ⟨k1, n1⟩ := e1
      obtain ⟨k2, n2⟩ := e2
      obtain ⟨hk, hne, hmdn, ht⟩ := hr
      have hk2 : k1 = k2 := hk
      subst hk2
      rw [Heap.set_cons, Heap.set_cons]
      by_cases hkq : k1 = q
      · rw [if_pos hkq, if_pos hkq]
        refine ⟨rfl, ?_, hmd, ih ht⟩
        intro hkp
        exact hm (show q ≠ p from by rw [← hkq]; exact hkp)
      · rw [if_neg hkq, if_neg hkq]
        exact ⟨rfl, hne, hmdn, ih ht⟩

theorem heapRel_set_same {p : Nat} {h1 h2 : Heap} (hr : HeapRel p h1 h2) (m : Node) :
    h1.set p m = h2.set p m := by
  induction h1 generalizing h2 with
  | nil =>
    cases h2 with
    | nil => rfl
    | cons e2 t2 => exact False.elim hr
  | cons e1 t1 ih =>
    cases h2 with
    | nil => exact False.elim hr
    | cons e2 t2 =>
      obtain ⟨k1, n1⟩ := e1
      obtain ⟨k2, n2⟩ := e2
      obtain ⟨hk, hne, hmdn, ht⟩ := hr
      have hk2 : k1 = k2 := hk
      subst hk2
      rw [Heap.set_cons, Heap.set_cons]
      by_cases hkp : k1 = p
      · rw [if_pos hkp, if_pos hkp, ih ht]
      · have h12 : n1 = n2 := hne hkp
        rw [if_neg hkp, if_neg hkp, ih ht, h12]

/-- Dirty propagation is a congruence for `HeapRel`: starting from two related
heaps it performs the same visits (same ghost trace), yields the same outcome,
and leaves related heaps. -/
theorem markDirty_cong (p : Nat) (fuel : Nat) :
    (∀ (h1 h2 : Heap) (q : Nat), HeapRel p h1 h2 →
      (markDirty fuel h1 q).1.2 = (markDirty fuel h2 q).1.2 ∧
      (markDirty fuel h1 q).2 = (markDirty fuel h2 q).2 ∧
      HeapRel p (markDirty fuel h1 q).1.1 (markDirty fuel h2 q).1.1) ∧
    (∀ (h1 h2 : Heap) (ds : List Nat), HeapRel p h1 h2 →
      (markDirtyList fuel h1 ds).1.2 = (markDirtyList fuel h2 ds).1.2 ∧
      (markDirtyList fuel h1 ds).2 = (markDirtyList fuel h2 ds).2 ∧
      HeapRel p (markDirtyList fuel h1 ds).1.1 (markDirtyList fuel h2 ds).1.1) := by
  induction fuel with
  | zero =>
    constructor
    · intro h1 h2 q hr; exact ⟨rfl, rfl, hr⟩
    · intro h1 h2 ds hr
      cases ds with
      | nil => exact ⟨rfl, rfl, hr⟩
      | cons d ds2 => exact ⟨rfl, rfl, hr⟩
  | succ f ih =>
    obtain ⟨ihD, ihL⟩ := ih
    have hD : ∀ (h1 h2 : Heap) (q : Nat), HeapRel p h1 h2 →
        (markDirty (f + 1) h1 q).1.2 = (markDirty (f + 1) h2 q).1.2 ∧
        (markDirty (f + 1) h1 q).2 = (markDirty (f + 1) h2 q).2 ∧
        HeapRel p (markDirty (f + 1) h1 q).1.1 (markDirty (f + 1) h2 q).1.1 := by
      intro h1 h2 q hr
      simp only [markDirty]
      rcases heapRel_find hr q with ⟨hf1, hf2⟩ | ⟨n1, n2, hf1, hf2, hqe, hmd⟩
      · rw [hf1, hf2]
        exact ⟨rfl, rfl, hr⟩
      · rw [hf1, hf2]
        dsimp only
        obtain ⟨hv, hdeps, hupd⟩ := hmd
        by_cases hu : n1.updating = true
        · rw [if_pos hu, if_pos (show n2.updating = true from by rw [← hupd]; exact hu)]
          exact ⟨rfl, rfl, hr⟩
        · rw [if_neg hu, if_neg (show ¬ n2.updating = true from by rw [← hupd]; exact hu)]
          have hrel1 : HeapRel p (h1.set q { n1 with dirty := true, dependencies := [] })
              (h2.set q { n2 with dirty := true, dependencies := [] }) := by
            refine heapRel_set hr q _ _ ?_ ⟨hv, rfl, hupd⟩
            intro hqp
            rw [hqe hqp]
          rw [hdeps]
          have hrec := ihL (h1.set q { n1 with dirty := true, dependencies := [] })
            (h2.set q { n2 with dirty := true, dependencies := [] }) n2.dependencies hrel1
          rcases hm1 : markDirtyList f (h1.set q { n1 with dirty := true, dependencies := [] })
              n2.dependencies with ⟨⟨g1, t1⟩, o1⟩
          rcases hm2 : markDirtyList f (h2.set q { n2 with dirty := true, dependencies := [] })
              n2.dependencies with ⟨⟨g2, t2⟩, o2⟩
          rw [hm1, hm2] at hrec
          obtain ⟨htr, hout, hrel2⟩ := hrec
          have ht12 : t1 = t2 := htr
          have ho12 : o1 = o2 := hout
          subst ht12
          subst ho12
          cases o1 with
          | ok u => exact ⟨rfl, rfl, hrel2⟩
          | err => exact ⟨rfl, rfl, hrel2⟩
          | noFuel => exact ⟨rfl, rfl, hrel2⟩
    refine ⟨hD, ?_⟩
    intro h1 h2 ds hr
    cases ds with
    | nil => exact ⟨rfl, rfl, hr⟩
    | cons d ds2 =>
      simp only [markDirtyList]
      have hrec := ihD h1 h2 d hr
      rcases hm1 : markDirty f h1 d with ⟨⟨g1, t1⟩, o1⟩
      rcases hm2 : markDirty f h2 d with ⟨⟨g2, t2⟩, o2⟩
      rw [hm1, hm2] at hrec
      obtain ⟨htr, hout, hrelD⟩ := hrec
      have ht12 : t1 = t2 := htr
      have ho12 : o1 = o2 := hout
      subst ht12
      subst ho12
      cases o1 with
      | ok u =>
        simp only [mbind]
        have hrecL := ihL g1 g2 ds2 hrelD
        rcases hn1 : markDirtyList f g1 ds2 with ⟨⟨e1, u1⟩, p1⟩
        rcases hn2 : markDirtyList f g2 ds2 with ⟨⟨e2, u2⟩, p2⟩
        rw [hn1, hn2] at hrecL
        obtain ⟨htrL, houtL, hrelL⟩ := hrecL
        have hu12 : u1 = u2 := htrL
        have hp12 : p1 = p2 := houtL
        subst hu12
        subst hp12
        cases p1 with
        | ok w => exact ⟨rfl, rfl, hrelL⟩
        | err => exact ⟨rfl, rfl, hrelL⟩
        | noFuel => exact ⟨rfl, rfl, hrelL⟩
      | err => exact ⟨rfl, rfl, hrelD⟩
      | noFuel => exact ⟨rfl, rfl, hrelD⟩

/-! ## The public mutators preserve the well-formedness invariant -/

theorem setCommit_wf (fuel : Nat) (s : EngineState) (p : Nat) (n : Node) (v : Int)
    (hw : WF s.heap) (hfp : s.heap.find p = some n) :
    (setCommit fuel s p n v).2 = .ok () → WF (setCommit fuel s p n v).1.heap := by
  intro hok
  obtain ⟨hn, hq, hd⟩ := hw
  unfold setCommit at hok ⊢
  dsimp only at hok ⊢
  have hnu : n.updating = false := hq.findQ hfp
  have hq1 : (s.heap.set p { n with binding := none, dirty := false, value := v }).Quiescent :=
    hq.setQ (show Node.updating { n with binding := none, dirty := false, value := v } = false
      from hnu)
  obtain ⟨hne, hq2, hkeys2, hdef2⟩ :=
    (markDirty_inv fuel).1 (s.heap.set p { n with binding := none, dirty := false, value := v })
      p hq1
  rcases hmd : markDirty fuel (s.heap.set p { n with binding := none, dirty := false, value := v })
      p with ⟨⟨h2, tr⟩, o⟩
  rw [hmd] at hok hne hq2 hkeys2 hdef2
  cases o with
  | ok u =>
    dsimp only at hok ⊢
    cases hfind : h2.find p with
    | none =>
      rw [hfind] at hok
      exact Outcome.noConfusion hok
    | some n2 =>
      refine ⟨?_, ?_, ?_⟩
      · exact nodupKeys_of_keys_eq
          ((Heap.set_keys h2 p _).trans (hkeys2.trans (Heap.set_keys s.heap p _))) hn
      · have hnu2 : n2.updating = false := hq2.findQ hfind
        exact hq2.setQ (show Node.updating { n2 with dirty := false } = false from hnu2)
      · have hd1 : (s.heap.set p
            { n with binding := none, dirty := false, value := v }).DefaultBindings :=
          hd.setD rfl
        have hdef3 := hdef2 hd1
        have hb2 := hdef3.findD hfind
        exact hdef3.setD (show (Option.all (fun c => c.allowReplaceValue && c.allowReplaceBinding)
          (Node.binding { n2 with dirty := false })) = true from hb2)
  | err => exact Outcome.noConfusion hok
  | noFuel => exact Outcome.noConfusion hok

theorem set_wf (fuel : Nat) (s : EngineState) (p : Nat) (v : Int) (hw : WF s.heap) :
    (set fuel s p v).2 = .ok () → WF (set fuel s p v).1.heap := by
  rw [set_eq]
  cases hfp : s.heap.find p with
  | none => intro hok; exact Outcome.noConfusion hok
  | some n =>
    dsimp only
    by_cases hu : n.updating = true
    · rw [if_pos hu]; intro hok; exact Outcome.noConfusion hok
    · rw [if_neg hu]
      cases hb : n.binding with
      | none => exact setCommit_wf fuel s p n v hw hfp
      | some b =>
        dsimp only
        by_cases hrv : (!b.allowReplaceValue) = true
        · rw [if_pos hrv]; intro _; exact hw
        · rw [if_neg hrv]; exact setCommit_wf fuel s p n v hw hfp

theorem setBindingCommit_wf (fuel : Nat) (s : EngineState) (p : Nat) (n : Node) (b : BindingObj)
    (hw : WF s.heap) (hfp : s.heap.find p = some n)
    (hbp : (b.allowReplaceValue && b.allowReplaceBinding) = true) :
    (setBindingCommit fuel s p n b).2 = .ok () → WF (setBindingCommit fuel s p n b).1.heap := by
  intro hok
  obtain ⟨hn, hq, hd⟩ := hw
  unfold setBindingCommit at hok ⊢
  dsimp only at hok ⊢
  have hnu : n.updating = false := hq.findQ hfp
  have hq1 : (s.heap.set p { n with binding := some b }).Quiescent :=
    hq.setQ (show Node.updating { n with binding := some b } = false from hnu)
  obtain ⟨hne, hq2, hkeys2, hdef2⟩ :=
    (markDirty_inv fuel).1 (s.heap.set p { n with binding := some b }) p hq1
  rcases hmd : markDirty fuel (s.heap.set p { n with binding := some b }) p with ⟨⟨h2, tr⟩, o⟩
  rw [hmd] at hok hne hq2 hkeys2 hdef2
  cases o with
  | ok u =>
    refine ⟨?_, hq2, ?_⟩
    · exact nodupKeys_of_keys_eq (hkeys2.trans (Heap.set_keys s.heap p _)) hn
    · exact hdef2 (hd.setD (show (Option.all (fun c => c.allowReplaceValue && c.allowReplaceBinding) (some b)) = true from hbp))
  | err => exact Outcome.noConfusion hok
  | noFuel => exact Outcome.noConfusion hok

theorem set_binding_wf (fuel : Nat) (s : EngineState) (p : Nat) (b : BindingObj)
    (hw : WF s.heap) (hbp : (b.allowReplaceValue && b.allowReplaceBinding) = true) :
    (set_binding fuel s p b).2 = .ok () → WF (set_binding fuel s p b).1.heap := by
  unfold set_binding
  cases hfp : s.heap.find p with
  | none => intro hok; exact Outcome.noConfusion hok
  | some n =>
    dsimp only
    by_cases hu : n.updating = true
    · rw [if_pos hu]; intro hok; exact Outcome.noConfusion hok
    · rw [if_neg hu]
      cases hb : n.binding with
      | none => exact setBindingCommit_wf fuel s p n b hw hfp hbp
      | some eb =>
        dsimp only
        by_cases hrb : (!eb.allowReplaceBinding) = true
        · rw [if_pos hrb]; intro _; exact hw
        · rw [if_neg hrb]; exact setBindingCommit_wf fuel s p n b hw hfp hbp

theorem get_wf (fuel : Nat) (s : EngineState) (p : Nat) (hw : WF s.heap) :
    WF (get fuel s p).1.heap := stepInv_wf (get_heap_stepInv fuel s p) hw

/-- The low-level `set` protocol (write the value in place through the raw
pointer, then `sixtyfps_property_set_changed`) always produces the same
outcome as the high-level `Property::set`, and on success the very same
state.  The two differ only in the order of the writes around `mark_dirty`,
which never reads the fields they disagree on. -/
theorem low_set_eq_high (fuel : Nat) (s s0 : EngineState) (p : Nat) (v : Int)
    (hw : WF s.heap)
    (hs0 : s0 = (match s.heap.find p with
      | some n => { s with heap := s.heap.set p { n with value := v } }
      | none => s)) :
    (sixtyfps_property_set_changed fuel s0 p).2 = (set fuel s p v).2 ∧
    ((set fuel s p v).2 = .ok () → sixtyfps_property_set_changed fuel s0 p = set fuel s p v) := by
  obtain ⟨hn, hq, hd⟩ := hw
  rw [set_eq]
  cases hfp : s.heap.find p with
  | none =>
    rw [hfp] at hs0
    dsimp only at hs0
    subst hs0
    unfold sixtyfps_property_set_changed
    rw [hfp]
    exact ⟨rfl, fun _ => rfl⟩
  | some n =>
    rw [hfp] at hs0
    dsimp only at hs0
    subst hs0
    dsimp only
    have hnu : n.updating = false := hq.findQ hfp
    rw [if_neg (show ¬ (n.updating = true) from by rw [hnu]; simp)]
    have hcommit : (match n.binding with
        | some b => if !b.allowReplaceValue then (s, Outcome.ok ()) else setCommit fuel s p n v
        | none => setCommit fuel s p n v) = setCommit fuel s p n v := by
      cases hb : n.binding with
      | none => rfl
      | some b =>
        dsimp only
        have hall := hd.findD hfp
        rw [hb] at hall
        have hall2 : (b.allowReplaceValue && b.allowReplaceBinding) = true := hall
        have hrv : (!b.allowReplaceValue) = false := by
          cases h1 : b.allowReplaceValue
          · rw [h1] at hall2; simp at hall2
          · rfl
        rw [hrv]
        simp only [Bool.false_eq_true, if_false]
    rw [hcommit]
    unfold sixtyfps_property_set_changed setCommit
    dsimp only
    have hfv : (s.heap.set p { n with value := v }).find p = some { n with value := v } :=
      Heap.find_set_self s.heap p n _ hfp
    rw [hfv]
    have hrel0 : HeapRel p (s.heap.set p { n with binding := none, dirty := false, value := v })
        (s.heap.set p { n with value := v }) := by
      refine heapRel_set (heapRel_refl p s.heap) p _ _ ?_ ⟨rfl, rfl, rfl⟩
      intro hpp
      exact absurd rfl hpp
    have hcong := (markDirty_cong p fuel).1 _ _ p hrel0
    rcases hmH : markDirty fuel
        (s.heap.set p { n with binding := none, dirty := false, value := v }) p
      with ⟨⟨hH, trH⟩, oH⟩
    rcases hmL : markDirty fuel (s.heap.set p { n with value := v }) p with ⟨⟨hL, trL⟩, oL⟩
    rw [hmH, hmL] at hcong
    obtain ⟨htr, hout, hrel⟩ := hcong
    have ho : oH = oL := hout
    subst ho
    cases oH with
    | ok u =>
      dsimp only
      rcases heapRel_find hrel p with ⟨hfH, hfL⟩ | ⟨n2H, n2L, hfH, hfL, hpe, hmd2⟩
      · rw [hfH, hfL]
        exact ⟨rfl, fun hc => Outcome.noConfusion hc⟩
      · rw [hfH, hfL]
        dsimp only
        have hbH : n2H.binding = none := by
          obtain ⟨nd2, hfd, _, hbd, _⟩ := (markDirty_preserves fuel).1
            (s.heap.set p { n with binding := none, dirty := false, value := v }) p p
            { n with binding := none, dirty := false, value := v }
            (Heap.find_set_self s.heap p n _ hfp)
          rw [hmH] at hfd
          rw [hfH] at hfd
          injection hfd with he
          rw [he]
          exact hbd
        obtain ⟨hv2, hdep2, hupd2⟩ := hmd2
        have hnodes : ({ n2H with dirty := false } : Node) =
            { n2L with dirty := false, binding := none } := by
          obtain ⟨v1, b1, d1, di1, u1⟩ := n2H
          obtain ⟨v2, b2, d2, di2, u2⟩ := n2L
          have e1 : v1 = v2 := hv2
          have e2 : d1 = d2 := hdep2
          have e3 : u1 = u2 := hupd2
          have e4 : b1 = none := hbH
          subst e1
          subst e2
          subst e3
          subst e4
          rfl
        refine ⟨rfl, fun _ => ?_⟩
        rw [← hnodes, ← heapRel_set_same hrel ({ n2H with dirty := false })]
    | err => exact ⟨rfl, fun hc => Outcome.noConfusion hc⟩
    | noFuel => exact ⟨rfl, fun hc => Outcome.noConfusion hc⟩

/-- Interpreting any operation sequence through the two APIs gives the same
observables (the list of read values and the final outcome), and on overall
success the very same final state. -/
theorem runLow_eq_runHigh (fuel : Nat) (ops : List Op) :
    ∀ s : EngineState, WF s.heap →
      (runLow fuel s ops).2 = (runHigh fuel s ops).2 ∧
      ((runHigh fuel s ops).2.2 = .ok () → runLow fuel s ops = runHigh fuel s ops) := by
  induction ops with
  | nil => intro s hw; exact ⟨rfl, fun _ => rfl⟩
  | cons op ops ih =>
    intro s hw
    cases op with
    | get p =>
      simp only [runLow, runHigh, ffi_update_eq_get]
      rcases hg : get fuel s p with ⟨s1, o⟩
      cases o with
      | ok v =>
        dsimp only
        have hw1 : WF s1.heap := by
          have h0 := get_wf fuel s p hw
          rw [hg] at h0
          exact h0
        obtain ⟨ih1, ih2⟩ := ih s1 hw1
        constructor
        · rw [congrArg Prod.fst ih1, congrArg Prod.snd ih1]
        · intro hok
          have hokH : (runHigh fuel s1 ops).2.2 = .ok () := hok
          rw [ih2 hokH]
      | err => exact ⟨rfl, fun hc => Outcome.noConfusion hc⟩
      | noFuel => exact ⟨rfl, fun hc => Outcome.noConfusion hc⟩
    | set p v =>
      simp only [runLow, runHigh]
      obtain ⟨hout2, hfull⟩ := low_set_eq_high fuel s (match s.heap.find p with
        | some n => { s with heap := s.heap.set p { n with value := v } }
        | none => s) p v hw rfl
      rcases hset : set fuel s p v with ⟨s1H, oH⟩
      rcases hchg : sixtyfps_property_set_changed fuel (match s.heap.find p with
        | some n => { s with heap := s.heap.set p { n with value := v } }
        | none => s) p with ⟨s1L, oL⟩
      rw [hset, hchg] at hout2 hfull
      have ho : oL = oH := hout2
      subst ho
      cases oL with
      | ok u =>
        cases u
        have hst := hfull rfl
        have e1 : s1L = s1H := congrArg Prod.fst hst
        rw [e1]
        have hw1 : WF s1H.heap := by
          have h0 := set_wf fuel s p v hw (by rw [hset])
          rw [hset] at h0
          exact h0
        exact ih s1H hw1
      | err => exact ⟨rfl, fun hc => Outcome.noConfusion hc⟩
      | noFuel => exact ⟨rfl, fun hc => Outcome.noConfusion hc⟩
    | setBinding p e =>
      simp only [runLow, runHigh]
      rw [ffi_set_binding_eq fuel s p { expr := e } hw.2.2]
      rcases hsb : set_binding fuel s p { expr := e } with ⟨s1, o⟩
      cases o with
      | ok u =>
        cases u
        have hw1 : WF s1.heap := by
          have h0 := set_binding_wf fuel s p { expr := e } hw rfl (by rw [hsb])
          rw [hsb] at h0
          exact h0
        exact ih s1 hw1
      | err => exact ⟨rfl, fun hc => Outcome.noConfusion hc⟩
      | noFuel => exact ⟨rfl, fun hc => Outcome.noConfusion hc⟩

/-- C9: for every sequence of operations on the properties and every
well-formed starting state (no duplicate handles, no live borrow, default
replacement policies), performing the sequence through the low-level
opaque-handle API (`sixtyfps_property_update`, in-place write followed by
`sixtyfps_property_set_changed`, `sixtyfps_property_set_binding`) produces
exactly the same observable values and outcome as the equivalent high-level
sequence (`get` / `set` / `set_binding`) in the same order; on overall
success even the final states coincide. -/
theorem c9_foreign_handle_parity (fuel : Nat) (s : EngineState) (ops : List Op)
    (hw : WF s.heap) :
    (runLow fuel s ops).2 = (runHigh fuel s ops).2 ∧
    ((runHigh fuel s ops).2.2 = .ok () → runLow fuel s ops = runHigh fuel s ops) :=
  runLow_eq_runHigh fuel ops s hw

theorem c9_foreign_handle_parity_witness :
    WF initThree.heap ∧ runLow 12 initThree areaScript = runHigh 12 initThree areaScript :=
  ⟨⟨by decide, by decide, by decide⟩,
   (c9_foreign_handle_parity 12 initThree areaScript ⟨by decide, by decide, by decide⟩).2
     (by rw [areaRun])⟩

/-! ## Completeness of dirty propagation (for the foreign mark-changed claim) -/

/-- A successful dirty propagation from `q` marks `q` and, transitively, every
still-alive node listed in a visited node's dependents.  Stated as a packaged
invariant for the mutual fuel induction: (i) every surviving node keeps its
dependents list unless it was visited, in which case the list is emptied, and
a set dirty flag is never cleared; (ii) the root is visited if alive; (iii)
the visit trace is closed under alive dependent edges of the initial heap;
(iv) every visited node ends up dirty. -/
theorem markDirty_complete (fuel : Nat) :
    (∀ (h : Heap) (q : Nat) (h2 : Heap) (tr : List Nat),
      markDirty fuel h q = ((h2, tr), .ok ()) →
      (∀ x n, h.find x = some n → ∃ n2, h2.find x = some n2 ∧
        (n2.dependencies = n.dependencies ∨ (n2.dependencies = [] ∧ x ∈ tr)) ∧
        (n.dirty = true → n2.dirty = true)) ∧
      (∀ n, h.find q = some n → q ∈ tr) ∧
      (∀ x, x ∈ tr → ∀ nx, h.find x = some nx → ∀ d, d ∈ nx.dependencies →
        (∃ nd, h.find d = some nd) → d ∈ tr) ∧
      (∀ x, x ∈ tr → ∃ n2, h2.find x = some n2 ∧ n2.dirty = true)) ∧
    (∀ (h : Heap) (ds : List Nat) (h2 : Heap) (tr : List Nat),
      markDirtyList fuel h ds = ((h2, tr), .ok ()) →
      (∀ x n, h.find x = some n → ∃ n2, h2.find x = some n2 ∧
        (n2.dependencies = n.dependencies ∨ (n2.dependencies = [] ∧ x ∈ tr)) ∧
        (n.dirty = true → n2.dirty = true)) ∧
      (∀ d, d ∈ ds → (∃ n, h.find d = some n) → d ∈ tr) ∧
      (∀ x, x ∈ tr → ∀ nx, h.find x = some nx → ∀ d, d ∈ nx.dependencies →
        (∃ nd, h.find d = some nd) → d ∈ tr) ∧
      (∀ x, x ∈ tr → ∃ n2, h2.find x = some n2 ∧ n2.dirty = true)) := by
  induction fuel with
  | zero =>
    constructor
    · intro h q h2 tr hrun
      exact Outcome.noConfusion (congrArg Prod.snd hrun)
    · intro h ds h2 tr hrun
      cases ds with
      | nil =>
        have e1 : h = h2 := congrArg (fun z => z.1.1) hrun
        have e2 : ([] : List Nat) = tr := congrArg (fun z => z.1.2) hrun
        subst e1
        subst e2
        refine ⟨fun x n hf => ⟨n, hf, Or.inl rfl, fun hd => hd⟩, ?_, ?_, ?_⟩
        · intro d hd _; exact absurd hd (List.not_mem_nil d)
        · intro x hx; exact absurd hx (List.not_mem_nil x)
        · intro x hx; exact absurd hx (List.not_mem_nil x)
      | cons d ds2 => exact Outcome.noConfusion (congrArg Prod.snd hrun)
  | succ f ih =>
    obtain ⟨ihD, ihL⟩ := ih
    have hD : ∀ (h : Heap) (q : Nat) (h2 : Heap) (tr : List Nat),
        markDirty (f + 1) h q = ((h2, tr), .ok ()) →
        (∀ x n, h.find x = some n → ∃ n2, h2.find x = some n2 ∧
          (n2.dependencies = n.dependencies ∨ (n2.dependencies = [] ∧ x ∈ tr)) ∧
          (n.dirty = true → n2.dirty = true)) ∧
        (∀ n, h.find q = some n → q ∈ tr) ∧
        (∀ x, x ∈ tr → ∀ nx, h.find x = some nx → ∀ d, d ∈ nx.dependencies →
          (∃ nd, h.find d = some nd) → d ∈ tr) ∧
        (∀ x, x ∈ tr → ∃ n2, h2.find x = some n2 ∧ n2.dirty = true) := by
      intro h q h2 tr hrun
      simp only [markDirty] at hrun
      cases hfq : h.find q with
      | none =>
        rw [hfq] at hrun
        have e1 : h = h2 := congrArg (fun z => z.1.1) hrun
        have e2 : ([] : List Nat) = tr := congrArg (fun z => z.1.2) hrun
        subst e1
        subst e2
        refine ⟨fun x n hf => ⟨n, hf, Or.inl rfl, fun hd => hd⟩, ?_, ?_, ?_⟩
        · intro n hf
          exact Option.noConfusion hf
        · intro x hx; exact absurd hx (List.not_mem_nil x)
        · intro x hx; exact absurd hx (List.not_mem_nil x)
      | some n =>
        rw [hfq] at hrun
        dsimp only at hrun
        by_cases hu : n.updating = true
        · rw [if_pos hu] at hrun
          exact Outcome.noConfusion (congrArg Prod.snd hrun)
        · rw [if_neg hu] at hrun
          rcases hlst : markDirtyList f (h.set q { n with dirty := true, dependencies := [] })
              n.dependencies with ⟨⟨g, tl⟩, o⟩
          rw [hlst] at hrun
          cases o with
          | ok u =>
            cases u
            simp only [mbind] at hrun
            have e1 : g = h2 := congrArg (fun z => z.1.1) hrun
            have e2 : q :: tl = tr := congrArg (fun z => z.1.2) hrun
            subst e1
            subst e2
            obtain ⟨ihI, ihW, ihC, ihF⟩ :=
              ihL (h.set q { n with dirty := true, dependencies := [] }) n.dependencies g tl hlst
            have hfq1 : (h.set q { n with dirty := true, dependencies := [] }).find q =
                some { n with dirty := true, dependencies := [] } :=
              Heap.find_set_self h q n _ hfq
            refine ⟨?_, ?_, ?_, ?_⟩
            · intro x nx hfx
              by_cases hxq : x = q
              · subst hxq
                rw [hfq] at hfx
                injection hfx with he
                subst he
                obtain ⟨n2, hfn2, hdep2, hdir2⟩ :=
                  ihI x { n with dirty := true, dependencies := [] } (Heap.find_set_self h x n _ hfq)
                refine ⟨n2, hfn2, Or.inr ⟨?_, List.mem_cons_self x tl⟩, fun _ => hdir2 rfl⟩
                rcases hdep2 with hh | hh
                · exact hh
                · exact hh.1
              · obtain ⟨n2, hfn2, hdep2, hdir2⟩ := ihI x nx
                  (by rw [Heap.find_set_ne h q x _ hxq]; exact hfx)
                refine ⟨n2, hfn2, ?_, hdir2⟩
                rcases hdep2 with hh | hh
                · exact Or.inl hh
                · exact Or.inr ⟨hh.1, List.mem_cons_of_mem q hh.2⟩
            · intro n0 hf0
              exact List.mem_cons_self q tl
            · intro x hx nx hfx d hd hdalive
              have halive1 : ∃ nd1,
                  (h.set q { n with dirty := true, dependencies := [] }).find d = some nd1 := by
                by_cases hdq : d = q
                · subst hdq
                  exact ⟨_, Heap.find_set_self h d n _ hfq⟩
                · obtain ⟨nd, hfd⟩ := hdalive
                  exact ⟨nd, by rw [Heap.find_set_ne h q d _ hdq]; exact hfd⟩
              by_cases hxq : x = q
              · subst hxq
                rw [hfq] at hfx
                injection hfx with he
                subst he
                exact List.mem_cons_of_mem x (ihW d hd halive1)
              · have hfx1 : (h.set q { n with dirty := true, dependencies := [] }).find x =
                    some nx := by
                  rw [Heap.find_set_ne h q x _ hxq]
                  exact hfx
                have hxtl : x ∈ tl := by
                  rcases List.mem_cons.mp hx with hh | hh
                  · exact absurd hh hxq
                  · exact hh
                exact List.mem_cons_of_mem q (ihC x hxtl nx hfx1 d hd halive1)
            · intro x hx
              by_cases hxq : x = q
              · subst hxq
                obtain ⟨n2, hfn2, _, hdir2⟩ :=
                  ihI x { n with dirty := true, dependencies := [] } hfq1
                exact ⟨n2, hfn2, hdir2 rfl⟩
              · have hxtl : x ∈ tl := by
                  rcases List.mem_cons.mp hx with hh | hh
                  · exact absurd hh hxq
                  · exact hh
                exact ihF x hxtl
          | err => exact Outcome.noConfusion (congrArg Prod.snd hrun)
          | noFuel => exact Outcome.noConfusion (congrArg Prod.snd hrun)
    refine ⟨hD, ?_⟩
    intro h ds h2 tr hrun
    cases ds with
    | nil =>
      have e1 : h = h2 := congrArg (fun z => z.1.1) hrun
      have e2 : ([] : List Nat) = tr := congrArg (fun z => z.1.2) hrun
      subst e1
      subst e2
      refine ⟨fun x n hf => ⟨n, hf, Or.inl rfl, fun hd => hd⟩, ?_, ?_, ?_⟩
      · intro d hd _; exact absurd hd (List.not_mem_nil d)
      · intro x hx; exact absurd hx (List.not_mem_nil x)
      · intro x hx; exact absurd hx (List.not_mem_nil x)
    | cons d ds2 =>
      simp only [markDirtyList] at hrun
      rcases hhd : markDirty f h d with ⟨⟨g1, t1⟩, o1⟩
      rw [hhd] at hrun
      cases o1 with
      | ok u =>
        cases u
        simp only [mbind] at hrun
        rcases htl : markDirtyList f g1 ds2 with ⟨⟨g2, t2⟩, o2⟩
        rw [htl] at hrun
        cases o2 with
        | ok u2 =>
          cases u2
          simp only [mbind] at hrun
          have e1 : g2 = h2 := congrArg (fun z => z.1.1) hrun
          have e2 : t1 ++ t2 = tr := congrArg (fun z => z.1.2) hrun
          subst e1
          subst e2
          obtain ⟨hdI, hdR, hdC, hdF⟩ := ihD h d g1 t1 hhd
          obtain ⟨ltI, ltW, ltC, ltF⟩ := ihL g1 ds2 g2 t2 htl
          refine ⟨?_, ?_, ?_, ?_⟩
          · intro x nx hfx
            obtain ⟨m1, hfm1, hdep1, hdir1⟩ := hdI x nx hfx
            obtain ⟨m2, hfm2, hdep2, hdir2⟩ := ltI x m1 hfm1
            refine ⟨m2, hfm2, ?_, fun hdx => hdir2 (hdir1 hdx)⟩
            rcases hdep1 with hh1 | hh1
            · rcases hdep2 with hh2 | hh2
              · exact Or.inl (hh2.trans hh1)
              · exact Or.inr ⟨hh2.1, List.mem_append_right t1 hh2.2⟩
            · rcases hdep2 with hh2 | hh2
              · exact Or.inr ⟨hh2.trans hh1.1, List.mem_append_left t2 hh1.2⟩
              · exact Or.inr ⟨hh2.1, List.mem_append_right t1 hh2.2⟩
          · intro e he halive
            rcases List.mem_cons.mp he with hh | hh
            · subst hh
              obtain ⟨nd, hfd⟩ := halive
              exact List.mem_append_left t2 (hdR nd hfd)
            · obtain ⟨nd, hfd⟩ := halive
              obtain ⟨m1, hfm1, _, _⟩ := hdI e nd hfd
              exact List.mem_append_right t1 (ltW e hh ⟨m1, hfm1⟩)
          · intro x hx nx hfx d2 hd2 halive
            have halive1 : ∃ m1, g1.find d2 = some m1 := by
              obtain ⟨nd, hfd⟩ := halive
              obtain ⟨m1, hfm1, _, _⟩ := hdI d2 nd hfd
              exact ⟨m1, hfm1⟩
            rcases List.mem_append.mp hx with hx1 | hx2
            · exact List.mem_append_left t2 (hdC x hx1 nx hfx d2 hd2 halive)
            · obtain ⟨m1, hfm1, hdep1, _⟩ := hdI x nx hfx
              rcases hdep1 with hh | hh
              · refine List.mem_append_right t1 (ltC x hx2 m1 hfm1 d2 ?_ halive1)
                rw [hh]
                exact hd2
              · exact List.mem_append_left t2 (hdC x hh.2 nx hfx d2 hd2 halive)
          · intro x hx
            rcases List.mem_append.mp hx with hx1 | hx2
            · obtain ⟨m1, hfm1, hdir1⟩ := hdF x hx1
              obtain ⟨m2, hfm2, _, hdir2⟩ := ltI x m1 hfm1
              exact ⟨m2, hfm2, hdir2 hdir1⟩
            · exact ltF x hx2
        | err => exact Outcome.noConfusion (congrArg Prod.snd hrun)
        | noFuel => exact Outcome.noConfusion (congrArg Prod.snd hrun)
      | err => exact Outcome.noConfusion (congrArg Prod.snd hrun)
      | noFuel => exact Outcome.noConfusion (congrArg Prod.snd hrun)

/-- Transitive reachability along the dependents lists recorded in a heap:
`Reaches h p d` holds when `d` can be reached from `p` by repeatedly stepping
from a live node to an entry of its `dependencies`. -/
inductive Reaches (h : Heap) : Nat → Nat → Prop
  | refl (p : Nat) : Reaches h p p
  | step {p q r : Nat} (hpq : Reaches h p q) (n : Node) (hfq : h.find q = some n)
      (hr : r ∈ n.dependencies) : Reaches h p r

/-- Concrete three-node dependency chain used to witness the mark-changed
claim. -/
def chainS : EngineState :=
  { heap := [(0, { dependencies := [1] }), (1, { dependencies := [2] }), (2, {})] }

/-- State of the chain after `sixtyfps_property_set_changed` on node `0`. -/
def chainAfter : EngineState :=
  { heap := [(0, {}), (1, { dirty := true }), (2, { dirty := true })] }

/-- C10: after a successful `sixtyfps_property_set_changed` on `p` the node's
binding has been removed and its own dirty flag is clear, and every still-alive
property reachable from `p` through the registered dependents lists (other
than `p` itself) has been marked dirty. -/
theorem c10_set_changed_detaches_and_marks (fuel : Nat) (s s2 : EngineState) (p : Nat)
    (hrun : sixtyfps_property_set_changed fuel s p = (s2, .ok ())) :
    (∃ np, s2.heap.find p = some np ∧ np.binding = none ∧ np.dirty = false) ∧
    (∀ d, Reaches s.heap p d → d ≠ p → (∃ nd, s.heap.find d = some nd) →
      ∃ nd2, s2.heap.find d = some nd2 ∧ nd2.dirty = true) := by
  unfold sixtyfps_property_set_changed at hrun
  cases hfp : s.heap.find p with
  | none =>
    rw [hfp] at hrun
    exact Outcome.noConfusion (congrArg Prod.snd hrun)
  | some n0 =>
    rw [hfp] at hrun
    dsimp only at hrun
    rcases hmd : markDirty fuel s.heap p with ⟨⟨h2, tr⟩, o⟩
    rw [hmd] at hrun
    cases o with
    | ok u =>
      cases u
      dsimp only at hrun
      cases hf2 : h2.find p with
      | none =>
        rw [hf2] at hrun
        exact Outcome.noConfusion (congrArg Prod.snd hrun)
      | some n2 =>
        rw [hf2] at hrun
        have es : ({ s with heap := h2.set p { n2 with dirty := false, binding := none } }
            : EngineState) = s2 := congrArg Prod.fst hrun
        obtain ⟨cI, cR, cC, cF⟩ := (markDirty_complete fuel).1 s.heap p h2 tr hmd
        constructor
        · refine ⟨{ n2 with dirty := false, binding := none }, ?_, rfl, rfl⟩
          rw [← es]
          exact Heap.find_set_self h2 p n2 _ hf2
        · intro d hreach hdp halive
          have hmem : ∀ e, Reaches s.heap p e → (∃ ne1, s.heap.find e = some ne1) → e ∈ tr := by
            intro e hre
            induction hre with
            | refl => intro _; exact cR n0 hfp
            | step hpq nq hfq hr ihr =>
              intro _
              exact cC _ (ihr ⟨nq, hfq⟩) nq hfq _ hr (by assumption)
          obtain ⟨nd2, hfd2, hdir⟩ := cF d (hmem d hreach halive)
          refine ⟨nd2, ?_, hdir⟩
          rw [← es]
          show (h2.set p { n2 with dirty := false, binding := none }).find d = some nd2
          rw [Heap.find_set_ne h2 p d _ hdp]
          exact hfd2
    | err => exact Outcome.noConfusion (congrArg Prod.snd hrun)
    | noFuel => exact Outcome.noConfusion (congrArg Prod.snd hrun)

theorem c10_set_changed_detaches_and_marks_witness :
    sixtyfps_property_set_changed 12 chainS 0 = (chainAfter, .ok ()) ∧
    (∃ np, chainAfter.heap.find 0 = some np ∧ np.binding = none ∧ np.dirty = false) ∧
    (∃ nd2, chainAfter.heap.find 2 = some nd2 ∧ nd2.dirty = true) := by
  refine ⟨rfl, (c10_set_changed_detaches_and_marks 12 chainS chainAfter 0 rfl).1, ?_⟩
  have h01 : Reaches chainS.heap 0 1 :=
    Reaches.step (Reaches.refl 0) { dependencies := [1] } rfl (by decide)
  have h02 : Reaches chainS.heap 0 2 :=
    Reaches.step h01 { dependencies := [2] } rfl (by decide)
  exact (c10_set_changed_detaches_and_marks 12 chainS chainAfter 0 rfl).2 2 h02
    (by decide) ⟨{}, rfl⟩
